import Mathlib

/-!
Verification of the PyAutoGalaxy lensing core against its specification.

The repository's tests (`test_autoastro/unit/test_lensing.py`,
`test_autogalaxy/galaxy/test_galaxy.py`) exercise a lensing engine whose core
(`autoastro/lensing.py`, `autoastro/profiles/geometry_profiles.py`,
`autogalaxy/galaxy/galaxy.py`) is consumed through the mock mass profiles
defined inside the test files.  The mock profiles' closed-form convergence,
potential and deflection formulas are embedded here directly from the test
sources; the lensing / galaxy layers they exercise are modelled from the
specification, as flagged in each doc comment.

Conventions: a grid point is an ordered pair `(y, x)` of real numbers,
floating-point arithmetic is modelled by real arithmetic, and a flattened
array is a `List`.
-/

open Real

/-- A `(y, x)` coordinate in arc seconds. -/
abbrev Point : Type := ℝ × ℝ

/-- Mean of a list of reals, as computed by `np.mean` on a flattened array. -/
noncomputable def meanList (l : List ℝ) : ℝ := l.sum / l.length

/-- Inverse hyperbolic tangent as computed by `np.arctanh`:
`arctanh z = log ((1 + z) / (1 - z)) / 2`. -/
noncomputable def arctanh (z : ℝ) : ℝ := Real.log ((1 + z) / (1 - z)) / 2

theorem arctanh_zero : arctanh 0 = 0 := by
  simp [arctanh]

theorem hasDerivAt_arctanh {z : ℝ} (hz : z ^ 2 < 1) :
    HasDerivAt arctanh (1 / (1 - z ^ 2)) z := by
  have h1 : (0:ℝ) < 1 + z := by nlinarith
  have h2 : (0:ℝ) < 1 - z := by nlinarith
  have hq : (0:ℝ) < (1 + z) / (1 - z) := div_pos h1 h2
  have hinner : HasDerivAt (fun w : ℝ => (1 + w) / (1 - w))
      (((1 : ℝ) * (1 - z) - (1 + z) * (-1)) / (1 - z) ^ 2) z := by
    have ha : HasDerivAt (fun w : ℝ => 1 + w) 1 z := by
      simpa using (hasDerivAt_id z).const_add (1:ℝ)
    have hb : HasDerivAt (fun w : ℝ => 1 - w) (-1) z := by
      simpa using (hasDerivAt_id z).const_sub (1:ℝ)
    exact ha.div hb h2.ne'
  have hlog := (hinner.log hq.ne').div_const (2:ℝ)
  have hne : (1 : ℝ) - z ^ 2 ≠ 0 := by nlinarith
  have harith : ((1 : ℝ) * (1 - z) - (1 + z) * (-1)) / (1 - z) ^ 2 /
      ((1 + z) / (1 - z)) / 2 = 1 / (1 - z ^ 2) := by
    field_simp
    ring
  rw [harith] at hlog
  exact hlog

section JacobianLayer

/-!
Lensing quantities derived from the Jacobian of the deflection field.

Modelled from the spec: `autoastro/lensing.py` is not part of the sources.
The spec states that `jacobian_from_grid` numerically differentiates the
deflection field on a small symmetric offset to build
`A = I - d(deflection)/d(position)` at each coordinate; the numerical
differentiation is modelled as the exact Frechet derivative `Da` of the
deflection field, supplied alongside the field itself.  Positions and
deflections are `(y, x)` pairs, so `A 0 1` is minus the derivative of the
`y`-deflection in the `x` direction.
-/

/-- Modelled from the spec: the 2x2 lensing Jacobian
`A = I - d(deflection)/d(position)` at a point, built from the (modelled
exact) derivative `Da` of the deflection field. -/
noncomputable def jacobian (Da : Point → Point →L[ℝ] Point) (p : Point) :
    Matrix (Fin 2) (Fin 2) ℝ :=
  !![1 - (Da p (1, 0)).1, -(Da p (0, 1)).1;
     -(Da p (1, 0)).2, 1 - (Da p (0, 1)).2]

/-- Modelled from the spec: convergence derived from the Jacobian,
`1 - 0.5 * (A[0][0] + A[1][1])`. -/
noncomputable def convergence_via_jacobian (Da : Point → Point →L[ℝ] Point)
    (p : Point) : ℝ :=
  1 - 0.5 * (jacobian Da p 0 0 + jacobian Da p 1 1)

/-- Modelled from the spec: shear derived from the Jacobian,
`0.5 * sqrt ((A[0][0] - A[1][1])^2 + 4 * A[0][1]^2)`. -/
noncomputable def shear_via_jacobian (Da : Point → Point →L[ℝ] Point)
    (p : Point) : ℝ :=
  0.5 * Real.sqrt ((jacobian Da p 0 0 - jacobian Da p 1 1) ^ 2 +
    4 * jacobian Da p 0 1 ^ 2)

/-- Modelled from the spec: magnification `1 / det A`. -/
noncomputable def magnification (Da : Point → Point →L[ℝ] Point)
    (p : Point) : ℝ :=
  1 / (jacobian Da p 0 0 * jacobian Da p 1 1 -
    jacobian Da p 0 1 * jacobian Da p 1 0)

/-- Modelled from the spec: tangential eigenvalue
`1 - convergence - shear`. -/
noncomputable def tangential_eigen_value (Da : Point → Point →L[ℝ] Point)
    (p : Point) : ℝ :=
  1 - convergence_via_jacobian Da p - shear_via_jacobian Da p

/-- Modelled from the spec: radial eigenvalue `1 - convergence + shear`. -/
noncomputable def radial_eigen_value (Da : Point → Point →L[ℝ] Point)
    (p : Point) : ℝ :=
  1 - convergence_via_jacobian Da p + shear_via_jacobian Da p

/-- Modelled from the spec: `magnification_from_grid` evaluated over a grid. -/
noncomputable def magnification_from_grid (Da : Point → Point →L[ℝ] Point)
    (grid : List Point) : List ℝ :=
  grid.map (magnification Da)

/-- Modelled from the spec: `tangential_eigen_value_from_grid`. -/
noncomputable def tangential_eigen_value_from_grid
    (Da : Point → Point →L[ℝ] Point) (grid : List Point) : List ℝ :=
  grid.map (tangential_eigen_value Da)

/-- Modelled from the spec: `radial_eigen_value_from_grid`. -/
noncomputable def radial_eigen_value_from_grid
    (Da : Point → Point →L[ℝ] Point) (grid : List Point) : List ℝ :=
  grid.map (radial_eigen_value Da)

/-- The magnification recomputed from the two eigenvalues,
`1 / (tangential_eigen_value * radial_eigen_value)`, as in the test. -/
noncomputable def magnification_via_eigen_values_from_grid
    (Da : Point → Point →L[ℝ] Point) (grid : List Point) : List ℝ :=
  grid.map (fun p =>
    1 / (tangential_eigen_value Da p * radial_eigen_value Da p))

/-- A deflection field together with a scalar lensing potential it derives
from: `psi'` is the derivative field of the potential `psi`, the deflection
is the gradient `(d psi/dy, d psi/dx)`, and `Da` is the derivative field of
the deflection.  This packages the spec's phrase "profile derived purely
from a scalar potential". -/
structure ScalarPotentialDerivation
    (a : Point → Point) (Da : Point → Point →L[ℝ] Point) : Prop where
  exists_potential :
    ∃ (psi : Point → ℝ) (psi' : Point → Point →L[ℝ] ℝ)
      (psi'' : Point → Point →L[ℝ] Point →L[ℝ] ℝ),
      (∀ p, HasFDerivAt psi (psi' p) p) ∧
      (∀ p, a p = (psi' p (1, 0), psi' p (0, 1))) ∧
      (∀ p, HasFDerivAt psi' (psi'' p) p) ∧
      (∀ p, HasFDerivAt a (Da p) p)

theorem jacobian_offdiag_symm_of_potential
    {a : Point → Point} {Da : Point → Point →L[ℝ] Point}
    (h : ScalarPotentialDerivation a Da) (p : Point) :
    jacobian Da p 0 1 = jacobian Da p 1 0 := by
  obtain ⟨psi, psi', psi'', hpsi, ha, hpsi'', hDa⟩ := h.exists_potential
  have hgrad : ∀ q : Point,
      HasFDerivAt a
        (((psi'' q).flip ((1:ℝ), (0:ℝ))).prod
          ((psi'' q).flip ((0:ℝ), (1:ℝ)))) q := by
    intro q
    have h1 : HasFDerivAt (fun r : Point => psi' r ((1:ℝ), (0:ℝ)))
        ((psi'' q).flip ((1:ℝ), (0:ℝ))) q := by
      have := (hpsi'' q).clm_apply (hasFDerivAt_const ((1:ℝ), (0:ℝ)) q)
      simpa using this
    have h2 : HasFDerivAt (fun r : Point => psi' r ((0:ℝ), (1:ℝ)))
        ((psi'' q).flip ((0:ℝ), (1:ℝ))) q := by
      have := (hpsi'' q).clm_apply (hasFDerivAt_const ((0:ℝ), (1:ℝ)) q)
      simpa using this
    have heq : a = fun r : Point => (psi' r ((1:ℝ), (0:ℝ)), psi' r ((0:ℝ), (1:ℝ))) := by
      funext r
      exact ha r
    rw [heq]
    exact h1.prod h2
  have huniq : Da p =
      ((psi'' p).flip ((1:ℝ), (0:ℝ))).prod ((psi'' p).flip ((0:ℝ), (1:ℝ))) :=
    (hDa p).unique (hgrad p)
  have hsymm := second_derivative_symmetric hpsi (hpsi'' p)
    ((0:ℝ), (1:ℝ)) ((1:ℝ), (0:ℝ))
  simp only [jacobian, Matrix.cons_val', Matrix.cons_val_zero, Matrix.cons_val_one,
    Matrix.head_cons, Matrix.head_fin_const, Matrix.cons_val_fin_one, Matrix.of_apply,
    huniq]
  simp only [ContinuousLinearMap.prod_apply, ContinuousLinearMap.flip_apply]
  rw [hsymm]

theorem eigen_value_product (Da : Point → Point →L[ℝ] Point) (p : Point) :
    tangential_eigen_value Da p * radial_eigen_value Da p =
      jacobian Da p 0 0 * jacobian Da p 1 1 - jacobian Da p 0 1 ^ 2 := by
  have hnn : (0:ℝ) ≤ (jacobian Da p 0 0 - jacobian Da p 1 1) ^ 2 +
      4 * jacobian Da p 0 1 ^ 2 := by positivity
  have hs : shear_via_jacobian Da p ^ 2 =
      0.25 * ((jacobian Da p 0 0 - jacobian Da p 1 1) ^ 2 +
        4 * jacobian Da p 0 1 ^ 2) := by
    have := Real.sq_sqrt hnn
    simp only [shear_via_jacobian]
    rw [mul_pow, this]
    norm_num
  simp only [tangential_eigen_value, radial_eigen_value]
  have hexpand : ∀ c s : ℝ, (1 - c - s) * (1 - c + s) = (1 - c) ^ 2 - s ^ 2 := by
    intro c s
    ring
  rw [hexpand, hs, convergence_via_jacobian]
  ring

theorem magnification_eq_inv_eigen_product_of_symm
    (Da : Point → Point →L[ℝ] Point) (p : Point)
    (hsymm : jacobian Da p 0 1 = jacobian Da p 1 0) :
    magnification Da p =
      1 / (tangential_eigen_value Da p * radial_eigen_value Da p) := by
  rw [magnification, eigen_value_product, ← hsymm, sq]

theorem sum_zipWith_sub_eq_zero (f g : Point → ℝ) (grid : List Point)
    (h : ∀ p ∈ grid, f p = g p) :
    (List.zipWith (fun u v => u - v) (grid.map f) (grid.map g)).sum = 0 := by
  have hmap : List.zipWith (fun u v => u - v) (grid.map f) (grid.map g) =
      grid.map (fun p => f p - g p) := by
    induction grid with
    | nil => simp
    | cons q l ih => simp [ih]
  rw [hmap, List.sum_eq_zero]
  intro x hx
  obtain ⟨p, hp, rfl⟩ := List.mem_map.1 hx
  rw [h p hp, sub_self]

theorem meanList_zipWith_sub_eq_zero (f g : Point → ℝ) (grid : List Point)
    (h : ∀ p ∈ grid, f p = g p) :
    meanList (List.zipWith (fun u v => u - v) (grid.map f) (grid.map g)) = 0 := by
  rw [meanList, sum_zipWith_sub_eq_zero f g grid h, zero_div]

theorem meanList_map_eq_zero (f : Point → ℝ) (grid : List Point)
    (h : ∀ p ∈ grid, f p = 0) :
    meanList (grid.map f) = 0 := by
  rw [meanList, List.sum_eq_zero, zero_div]
  intro x hx
  obtain ⟨p, hp, rfl⟩ := List.mem_map.1 hx
  exact h p hp

/-- C1: for every mass profile (every deflection field derived from a scalar
lensing potential) and every evaluated grid, the magnification computed from
the Jacobian determinant (`magnification_from_grid`) agrees pointwise with
`1 / (tangential_eigen_value * radial_eigen_value)` on the same grid, so the
mean error of the test is exactly zero, below the 1e-4 tolerance. -/
theorem C1_magnification_from_eigen_values_and_from_determinant
    {a : Point → Point} {Da : Point → Point →L[ℝ] Point}
    (h : ScalarPotentialDerivation a Da) (grid : List Point) :
    (∀ p ∈ grid, magnification Da p =
      1 / (tangential_eigen_value Da p * radial_eigen_value Da p)) ∧
    |meanList (List.zipWith (fun u v => u - v)
      (magnification_from_grid Da grid)
      (magnification_via_eigen_values_from_grid Da grid))| < 1e-4 := by
  have hpt : ∀ p ∈ grid, magnification Da p =
      1 / (tangential_eigen_value Da p * radial_eigen_value Da p) := by
    intro p _
    exact magnification_eq_inv_eigen_product_of_symm Da p
      (jacobian_offdiag_symm_of_potential h p)
  refine ⟨hpt, ?_⟩
  have hmean := meanList_zipWith_sub_eq_zero (magnification Da)
    (fun p => 1 / (tangential_eigen_value Da p * radial_eigen_value Da p))
    grid hpt
  rw [magnification_from_grid, magnification_via_eigen_values_from_grid, hmean]
  norm_num

/-- Concrete scalar-potential derivation for the zero deflection field,
used to witness the jacobian-layer claims. -/
theorem zero_scalar_potential_derivation :
    ScalarPotentialDerivation (fun _ : Point => ((0:ℝ), (0:ℝ)))
      (fun _ : Point => (0 : Point →L[ℝ] Point)) := by
  refine ⟨⟨fun _ => (0:ℝ), fun _ => (0 : Point →L[ℝ] ℝ),
    fun _ => (0 : Point →L[ℝ] Point →L[ℝ] ℝ), ?_, ?_, ?_, ?_⟩⟩
  · intro p
    exact hasFDerivAt_const 0 p
  · intro p
    simp
  · intro p
    exact hasFDerivAt_const 0 p
  · intro p
    exact hasFDerivAt_const ((0:ℝ), (0:ℝ)) p

/-- Witness for C1 at the zero deflection field on a one-point grid. -/
theorem C1_witness :
    (∀ p ∈ [(((1:ℝ), (1:ℝ)) : Point)],
      magnification (fun _ : Point => (0 : Point →L[ℝ] Point)) p =
        1 / (tangential_eigen_value (fun _ : Point => (0 : Point →L[ℝ] Point)) p *
          radial_eigen_value (fun _ : Point => (0 : Point →L[ℝ] Point)) p)) ∧
    |meanList (List.zipWith (fun u v => u - v)
      (magnification_from_grid (fun _ : Point => (0 : Point →L[ℝ] Point))
        [(((1:ℝ), (1:ℝ)) : Point)])
      (magnification_via_eigen_values_from_grid
        (fun _ : Point => (0 : Point →L[ℝ] Point))
        [(((1:ℝ), (1:ℝ)) : Point)]))| < 1e-4 :=
  C1_magnification_from_eigen_values_and_from_determinant
    zero_scalar_potential_derivation [(((1:ℝ), (1:ℝ)) : Point)]

/-- Modelled from the spec: `jacobian_from_grid` evaluated over a grid. -/
noncomputable def jacobian_from_grid (Da : Point → Point →L[ℝ] Point)
    (grid : List Point) : List (Matrix (Fin 2) (Fin 2) ℝ) :=
  grid.map (jacobian Da)

/-- C2: for every mass profile whose deflections derive from a scalar lensing
potential and every grid, the 2x2 Jacobian returned by `jacobian_from_grid`
has symmetric off-diagonal entries `A[0][1] = A[1][0]` at every grid point,
so the mean of `A[0][1] - A[1][0]` over the grid is exactly zero, below the
1e-4 tolerance. -/
theorem C2_jacobian_components_offdiag_symmetric
    {a : Point → Point} {Da : Point → Point →L[ℝ] Point}
    (h : ScalarPotentialDerivation a Da) (grid : List Point) :
    (∀ A ∈ jacobian_from_grid Da grid, A 0 1 = A 1 0) ∧
    |meanList ((jacobian_from_grid Da grid).map
      (fun A => A 0 1 - A 1 0))| < 1e-4 := by
  constructor
  · intro A hA
    obtain ⟨p, _, rfl⟩ := List.mem_map.1 hA
    exact jacobian_offdiag_symm_of_potential h p
  · have : (jacobian_from_grid Da grid).map (fun A => A 0 1 - A 1 0) =
        grid.map (fun p => jacobian Da p 0 1 - jacobian Da p 1 0) := by
      simp [jacobian_from_grid]
    rw [this, meanList_map_eq_zero]
    · norm_num
    · intro p _
      rw [jacobian_offdiag_symm_of_potential h p, sub_self]

/-- Witness for C2 at the zero deflection field on a one-point grid. -/
theorem C2_witness :
    (∀ A ∈ jacobian_from_grid (fun _ : Point => (0 : Point →L[ℝ] Point))
      [(((1:ℝ), (1:ℝ)) : Point)], A 0 1 = A 1 0) ∧
    |meanList ((jacobian_from_grid (fun _ : Point => (0 : Point →L[ℝ] Point))
      [(((1:ℝ), (1:ℝ)) : Point)]).map (fun A => A 0 1 - A 1 0))| < 1e-4 :=
  C2_jacobian_components_offdiag_symmetric
    zero_scalar_potential_derivation [(((1:ℝ), (1:ℝ)) : Point)]

end JacobianLayer

section GalaxyLayer

/-!
The Galaxy aggregation layer.

Modelled from the spec: `autogalaxy/galaxy/galaxy.py` is not part of the
sources; only its tests are.  The spec describes a Galaxy as a redshift plus
profile containers (each bound to a single profile, never a collection), with
summation aggregation over profiles, an all-zero field of the grid's shape
when no mass profile is present, a `None` sentinel for the light-only
aggregate query on a galaxy without light profiles, and a `GalaxyException`
domain error for the mass aggregate query on a galaxy without mass profiles.
-/

/-- A light profile, abstracted to the capabilities the galaxy layer
aggregates: a 2D image field and a luminosity integral. -/
structure LightProfile where
  image_2d : Point → ℝ
  luminosity_within_circle : ℝ → ℝ

/-- A mass profile, abstracted to the capabilities the galaxy layer
aggregates: scalar convergence and potential fields, a 2-vector deflection
field, and an angular-mass integral. -/
structure MassProfile where
  convergence_2d : Point → ℝ
  potential_2d : Point → ℝ
  deflections_yx_2d : Point → Point
  mass_angular_within_circle : ℝ → ℝ

/-- Modelled from the spec: the domain errors raised by the Galaxy layer. -/
inductive GalaxyException where
  | listProfileValue : GalaxyException
  | noMassProfiles : GalaxyException
  deriving DecidableEq, Repr

/-- A value bound to one of the Galaxy constructor's profile keyword
arguments: a single light or mass profile, or (erroneously) a list. -/
inductive ProfileArg where
  | light (lp : LightProfile) : ProfileArg
  | mass (mp : MassProfile) : ProfileArg
  | lightList (l : List LightProfile) : ProfileArg
  | massList (l : List MassProfile) : ProfileArg

/-- Whether a constructor argument is a (rejected) list of profiles. -/
def ProfileArg.isListValue : ProfileArg → Bool
  | .lightList _ => true
  | .massList _ => true
  | _ => false

/-- Modelled from the spec: a Galaxy is a redshift plus its light and mass
profiles (either list may be empty). -/
structure Galaxy where
  redshift : ℝ
  light_profiles : List LightProfile
  mass_profiles : List MassProfile

/-- Modelled from the spec: the Galaxy constructor.  Every profile keyword
argument must be a single profile instance; a list-valued argument fails
construction with a `GalaxyException` and is never flattened. -/
def Galaxy.from_kwargs (redshift : ℝ) (args : List ProfileArg) :
    Except GalaxyException Galaxy :=
  if args.any ProfileArg.isListValue then
    .error .listProfileValue
  else
    .ok
      { redshift := redshift
        light_profiles := args.filterMap fun arg =>
          match arg with
          | .light lp => some lp
          | _ => none
        mass_profiles := args.filterMap fun arg =>
          match arg with
          | .mass mp => some mp
          | _ => none }

/-- Modelled from the spec: a Galaxy's convergence is the sum of its mass
profiles' convergences at each grid coordinate (an empty sum is zero). -/
def Galaxy.convergence_2d_from (g : Galaxy) (grid : List Point) : List ℝ :=
  grid.map fun p => (g.mass_profiles.map fun mp => mp.convergence_2d p).sum

/-- Modelled from the spec: a Galaxy's potential is the sum of its mass
profiles' potentials at each grid coordinate. -/
def Galaxy.potential_2d_from (g : Galaxy) (grid : List Point) : List ℝ :=
  grid.map fun p => (g.mass_profiles.map fun mp => mp.potential_2d p).sum

/-- Modelled from the spec: a Galaxy's deflection field is the sum of its
mass profiles' `(y, x)` deflections at each grid coordinate. -/
def Galaxy.deflections_yx_2d_from (g : Galaxy) (grid : List Point) :
    List Point :=
  grid.map fun p => (g.mass_profiles.map fun mp => mp.deflections_yx_2d p).sum

/-- Modelled from the spec: summed luminosity within a circle; the `none`
sentinel (Python `None`) when the galaxy has no light profiles. -/
def Galaxy.luminosity_within_circle_from (g : Galaxy) (radius : ℝ) :
    Option ℝ :=
  if g.light_profiles.isEmpty then
    none
  else
    some (g.light_profiles.map fun lp =>
      lp.luminosity_within_circle radius).sum

/-- Modelled from the spec: summed angular mass within a circle; raises a
`GalaxyException` domain error when the galaxy has no mass profiles. -/
def Galaxy.mass_angular_within_circle_from (g : Galaxy) (radius : ℝ) :
    Except GalaxyException ℝ :=
  if g.mass_profiles.isEmpty then
    .error .noMassProfiles
  else
    .ok (g.mass_profiles.map fun mp =>
      mp.mass_angular_within_circle radius).sum

/-- C7: a Galaxy with zero mass profiles returns, for any input grid,
all-zero convergence, potential and deflection fields whose shape matches
the grid exactly (one scalar per coordinate; one 2-vector per coordinate
for deflections), never a null or absent result. -/
theorem C7_no_mass_profile_quantities_returned_as_0s_of_shape_grid
    (g : Galaxy) (grid : List Point) (h : g.mass_profiles = []) :
    g.convergence_2d_from grid = List.replicate grid.length 0 ∧
    g.potential_2d_from grid = List.replicate grid.length 0 ∧
    g.deflections_yx_2d_from grid =
      List.replicate grid.length (((0:ℝ), (0:ℝ)) : Point) ∧
    (g.convergence_2d_from grid).length = grid.length ∧
    (g.potential_2d_from grid).length = grid.length ∧
    (g.deflections_yx_2d_from grid).length = grid.length := by
  refine ⟨?_, ?_, ?_, ?_, ?_, ?_⟩ <;>
    simp [Galaxy.convergence_2d_from, Galaxy.potential_2d_from,
      Galaxy.deflections_yx_2d_from, h, List.map_const]

/-- A concrete light profile used by the galaxy-layer witnesses. -/
def exampleLightProfile : LightProfile :=
  { image_2d := fun _ => 0
    luminosity_within_circle := fun _ => 1 }

/-- A concrete mass profile used by the galaxy-layer witnesses. -/
def exampleMassProfile : MassProfile :=
  { convergence_2d := fun _ => 0
    potential_2d := fun _ => 0
    deflections_yx_2d := fun _ => ((0:ℝ), (0:ℝ))
    mass_angular_within_circle := fun _ => 1 }

/-- Witness for C7: a redshift-0.5 galaxy with no profiles on a two-point
grid. -/
theorem C7_witness :
    (Galaxy.mass_profiles ⟨0.5, [], []⟩ = []) ∧
    (Galaxy.convergence_2d_from ⟨0.5, [], []⟩
        [(((1:ℝ), (1:ℝ)) : Point), ((2:ℝ), (2:ℝ))] =
      List.replicate 2 0 ∧
    Galaxy.potential_2d_from ⟨0.5, [], []⟩
        [(((1:ℝ), (1:ℝ)) : Point), ((2:ℝ), (2:ℝ))] =
      List.replicate 2 0 ∧
    Galaxy.deflections_yx_2d_from ⟨0.5, [], []⟩
        [(((1:ℝ), (1:ℝ)) : Point), ((2:ℝ), (2:ℝ))] =
      List.replicate 2 (((0:ℝ), (0:ℝ)) : Point) ∧
    (Galaxy.convergence_2d_from ⟨0.5, [], []⟩
        [(((1:ℝ), (1:ℝ)) : Point), ((2:ℝ), (2:ℝ))]).length = 2 ∧
    (Galaxy.potential_2d_from ⟨0.5, [], []⟩
        [(((1:ℝ), (1:ℝ)) : Point), ((2:ℝ), (2:ℝ))]).length = 2 ∧
    (Galaxy.deflections_yx_2d_from ⟨0.5, [], []⟩
        [(((1:ℝ), (1:ℝ)) : Point), ((2:ℝ), (2:ℝ))]).length = 2) :=
  ⟨rfl, C7_no_mass_profile_quantities_returned_as_0s_of_shape_grid
    ⟨0.5, [], []⟩ [(((1:ℝ), (1:ℝ)) : Point), ((2:ℝ), (2:ℝ))] rfl⟩

/-- C8: a Galaxy with zero light profiles answers the luminosity-in-circle
query with the `none` sentinel (not zero, not an error), while a Galaxy with
zero mass profiles answers the angular-mass-in-circle query with a
`GalaxyException` domain error (not a sentinel value) — the two aggregate
queries are deliberately asymmetric. -/
theorem C8_luminosity_sentinel_mass_error_asymmetry
    (g1 g2 : Galaxy) (r1 r2 : ℝ)
    (h1 : g1.light_profiles = []) (h2 : g2.mass_profiles = []) :
    g1.luminosity_within_circle_from r1 = none ∧
    g1.luminosity_within_circle_from r1 ≠ some 0 ∧
    g2.mass_angular_within_circle_from r2 =
      Except.error GalaxyException.noMassProfiles ∧
    (∀ m : ℝ, g2.mass_angular_within_circle_from r2 ≠ Except.ok m) := by
  have hl : g1.luminosity_within_circle_from r1 = none := by
    simp [Galaxy.luminosity_within_circle_from, h1]
  have hm : g2.mass_angular_within_circle_from r2 =
      Except.error GalaxyException.noMassProfiles := by
    simp [Galaxy.mass_angular_within_circle_from, h2]
  refine ⟨hl, ?_, hm, ?_⟩
  · rw [hl]
    exact fun hcontra => Option.noConfusion hcontra
  · intro m hcontra
    rw [hm] at hcontra
    exact Except.noConfusion hcontra

/-- Witness for C8: a mass-only galaxy and a light-only galaxy, as in the
tests. -/
theorem C8_witness :
    (Galaxy.light_profiles ⟨0.5, [], [exampleMassProfile]⟩ = []) ∧
    (Galaxy.mass_profiles ⟨0.5, [exampleLightProfile], []⟩ = []) ∧
    (Galaxy.luminosity_within_circle_from ⟨0.5, [], [exampleMassProfile]⟩ 1 =
      none ∧
    Galaxy.luminosity_within_circle_from ⟨0.5, [], [exampleMassProfile]⟩ 1 ≠
      some 0 ∧
    Galaxy.mass_angular_within_circle_from ⟨0.5, [exampleLightProfile], []⟩ 1 =
      Except.error GalaxyException.noMassProfiles ∧
    (∀ m : ℝ, Galaxy.mass_angular_within_circle_from
      ⟨0.5, [exampleLightProfile], []⟩ 1 ≠ Except.ok m)) :=
  ⟨rfl, rfl, C8_luminosity_sentinel_mass_error_asymmetry
    ⟨0.5, [], [exampleMassProfile]⟩ ⟨0.5, [exampleLightProfile], []⟩
    1 1 rfl rfl⟩

/-- C9: constructing a Galaxy with any profile keyword argument bound to a
list of profiles (light or mass) fails immediately with a `GalaxyException`;
no Galaxy is ever produced, so the list is never silently flattened. -/
theorem C9_cannot_pass_light_or_mass_list
    (redshift : ℝ) (args : List ProfileArg)
    (h : ∃ arg ∈ args, arg.isListValue = true) :
    Galaxy.from_kwargs redshift args =
      Except.error GalaxyException.listProfileValue ∧
    (∀ g : Galaxy, Galaxy.from_kwargs redshift args ≠ Except.ok g) := by
  have hany : args.any ProfileArg.isListValue = true := by
    obtain ⟨arg, harg, hlist⟩ := h
    exact List.any_eq_true.2 ⟨arg, harg, hlist⟩
  have herr : Galaxy.from_kwargs redshift args =
      Except.error GalaxyException.listProfileValue := by
    simp [Galaxy.from_kwargs, hany]
  refine ⟨herr, ?_⟩
  intro g hcontra
  rw [herr] at hcontra
  exact Except.noConfusion hcontra

/-- Witness for C9: a light keyword bound to a two-element list and a mass
keyword bound to a two-element list, as in the test. -/
theorem C9_witness :
    (∃ arg ∈ [ProfileArg.lightList [exampleLightProfile, exampleLightProfile],
      ProfileArg.massList [exampleMassProfile, exampleMassProfile]],
      arg.isListValue = true) ∧
    (Galaxy.from_kwargs 0.5
      [ProfileArg.lightList [exampleLightProfile, exampleLightProfile],
        ProfileArg.massList [exampleMassProfile, exampleMassProfile]] =
      Except.error GalaxyException.listProfileValue ∧
    (∀ g : Galaxy, Galaxy.from_kwargs 0.5
      [ProfileArg.lightList [exampleLightProfile, exampleLightProfile],
        ProfileArg.massList [exampleMassProfile, exampleMassProfile]] ≠
      Except.ok g)) :=
  ⟨⟨ProfileArg.lightList [exampleLightProfile, exampleLightProfile],
    List.mem_cons_self _ _, rfl⟩,
    C9_cannot_pass_light_or_mass_list 0.5
      [ProfileArg.lightList [exampleLightProfile, exampleLightProfile],
        ProfileArg.massList [exampleMassProfile, exampleMassProfile]]
      ⟨ProfileArg.lightList [exampleLightProfile, exampleLightProfile],
        List.mem_cons_self _ _, rfl⟩⟩

end GalaxyLayer

section CriticalCurveLayer

/-!
Critical curves and caustics.

Modelled from the spec: the contour extractor of `autoastro/lensing.py` is
not part of the sources.  The spec states that the tangential and radial
critical curves are the zero contours of the corresponding eigenvalue
fields, that the result groups the tangential branch before the radial
branch, and that caustics are obtained by mapping every critical-curve point
`p` to `p - deflection p`.  The traced contours themselves (output of the
marching-squares collaborator) are abstracted as lists of points.
-/

/-- Modelled from the spec: the traced zero contours of the tangential and
radial eigenvalue fields, as returned by the marching-squares contour
finder. -/
structure CriticalCurveData where
  tangential : List Point
  radial : List Point

/-- Modelled from the spec: `critical_curves_from_grid` returns the
tangential branch followed by the radial branch. -/
def critical_curves_from_grid (cc : CriticalCurveData) : List (List Point) :=
  [cc.tangential, cc.radial]

/-- Modelled from the spec: `caustics_from_grid` maps every critical curve
through `p - deflection p`. -/
def caustics_from_grid (deflections : Point → Point)
    (cc : CriticalCurveData) : List (List Point) :=
  (critical_curves_from_grid cc).map fun curve =>
    curve.map fun p => p - deflections p

/-- C6: for every deflection field and every traced pair of critical curves,
`caustics_from_grid` is exactly the image of each critical curve under the
map sending a critical-curve point to itself minus the deflection evaluated
there, branch by branch in matching positions. -/
theorem C6_caustics_are_critical_curves_minus_deflections
    (deflections : Point → Point) (cc : CriticalCurveData) :
    caustics_from_grid deflections cc =
      (critical_curves_from_grid cc).map (fun curve =>
        curve.map fun p => p - deflections p) ∧
    (caustics_from_grid deflections cc).length =
      (critical_curves_from_grid cc).length ∧
    ∀ pair ∈ (critical_curves_from_grid cc).zip
      (caustics_from_grid deflections cc),
      pair.2 = pair.1.map fun p => p - deflections p := by
  refine ⟨rfl, by simp [caustics_from_grid], ?_⟩
  intro pair hpair
  have hzip : (critical_curves_from_grid cc).zip
      (caustics_from_grid deflections cc) =
      [(cc.tangential, cc.tangential.map fun p => p - deflections p),
        (cc.radial, cc.radial.map fun p => p - deflections p)] := rfl
  rw [hzip] at hpair
  fin_cases hpair <;> rfl

/-- Witness for C6 at a concrete deflection field and concrete contours. -/
theorem C6_witness :
    caustics_from_grid (fun _ => ((1:ℝ), (0:ℝ))) ⟨[((2:ℝ), (0:ℝ))], [((1:ℝ), (0:ℝ))]⟩ =
      (critical_curves_from_grid ⟨[((2:ℝ), (0:ℝ))], [((1:ℝ), (0:ℝ))]⟩).map
        (fun curve => curve.map fun p => p - ((1:ℝ), (0:ℝ))) ∧
    (caustics_from_grid (fun _ => ((1:ℝ), (0:ℝ)))
      ⟨[((2:ℝ), (0:ℝ))], [((1:ℝ), (0:ℝ))]⟩).length =
      (critical_curves_from_grid ⟨[((2:ℝ), (0:ℝ))], [((1:ℝ), (0:ℝ))]⟩).length ∧
    ∀ pair ∈ (critical_curves_from_grid
      ⟨[((2:ℝ), (0:ℝ))], [((1:ℝ), (0:ℝ))]⟩).zip
      (caustics_from_grid (fun _ => ((1:ℝ), (0:ℝ)))
        ⟨[((2:ℝ), (0:ℝ))], [((1:ℝ), (0:ℝ))]⟩),
      pair.2 = pair.1.map fun p => p - ((1:ℝ), (0:ℝ)) :=
  C6_caustics_are_critical_curves_minus_deflections
    (fun _ => ((1:ℝ), (0:ℝ))) ⟨[((2:ℝ), (0:ℝ))], [((1:ℝ), (0:ℝ))]⟩

end CriticalCurveLayer

section SourceProfiles

/-!
The mock isothermal mass profiles of `test_autoastro/unit/test_lensing.py`,
embedded from the test source.  The geometry helpers they call
(`autoastro/profiles/geometry_profiles.py`) are not part of the sources and
are modelled from the spec: coordinates are translated by minus the centre
and rotated by minus the position angle into the profile frame, deflections
are rotated back by the position angle, and a coordinate landing exactly on
the profile centre is nudged to the minimum-radius floor `(1e-8, 1e-8)`
quoted in the test's docstring.  Angles are in degrees in the source.
-/

/-- Counter-clockwise rotation by `theta` radians acting on a `(y, x)`
pair. -/
noncomputable def rotate_ccw (theta : ℝ) (p : Point) : Point :=
  (p.2 * Real.sin theta + p.1 * Real.cos theta,
   p.2 * Real.cos theta - p.1 * Real.sin theta)

/-- Modelled from the spec: transform a coordinate into the profile's
reference frame — translate by minus the centre, rotate by minus the
position angle (degrees). -/
noncomputable def transform_grid_to_reference_frame (centre : Point)
    (phi : ℝ) (p : Point) : Point :=
  rotate_ccw (-(phi * π / 180)) (p - centre)

/-- Modelled from the spec: rotate a profile-frame vector back to the
original frame by the position angle (degrees). -/
noncomputable def rotate_grid_from_profile (phi : ℝ) (p : Point) : Point :=
  rotate_ccw (phi * π / 180) p

/-- Modelled from the spec: a coordinate at the profile centre (radius
exactly zero) is nudged to the minimum-radius floor `(1e-8, 1e-8)`. -/
noncomputable def move_grid_to_radial_minimum (p : Point) : Point :=
  if p = ((0:ℝ), (0:ℝ)) then ((1e-8 : ℝ), (1e-8 : ℝ)) else p

/-- Modelled from the spec: the elliptical radius of a profile-frame
coordinate, with the `1 / axis_ratio` scaling applied to the minor axis. -/
noncomputable def grid_to_elliptical_radii (axis_ratio : ℝ) (p : Point) : ℝ :=
  Real.sqrt (p.2 ^ 2 + (p.1 / axis_ratio) ^ 2)

/-- Modelled from the spec: convert a radial magnitude at each coordinate to
a Cartesian `(y, x)` vector along the coordinate's direction. -/
noncomputable def grid_to_grid_cartesian (p : Point) (radius : ℝ) : Point :=
  (radius * p.1 / Real.sqrt (p.1 ^ 2 + p.2 ^ 2),
   radius * p.2 / Real.sqrt (p.1 ^ 2 + p.2 ^ 2))

/-- `MockEllipticalIsothermal` of the test source: centre, minor-to-major
axis ratio, position angle (degrees) and Einstein radius. -/
structure MockEllipticalIsothermal where
  centre : Point
  axis_ratio : ℝ
  phi : ℝ
  einstein_radius : ℝ

namespace MockEllipticalIsothermal

/-- From the test source: the Einstein radius rescaled by the axis ratio,
`(1 / (1 + axis_ratio)) * einstein_radius`. -/
noncomputable def einstein_radius_rescaled (s : MockEllipticalIsothermal) : ℝ :=
  (1 / (1 + s.axis_ratio)) * s.einstein_radius

/-- From the test source: the closed-form isothermal deflection in the
profile frame; the `y` component uses `arctanh`, the `x` component
`arctan`, both scaled by `2 * einstein_radius_rescaled * axis_ratio /
sqrt (1 - axis_ratio^2)` and evaluated against
`psi = sqrt (axis_ratio^2 * x^2 + y^2)`. -/
noncomputable def deflections_core (s : MockEllipticalIsothermal)
    (p : Point) : Point :=
  (2 * s.einstein_radius_rescaled * s.axis_ratio /
      Real.sqrt (1 - s.axis_ratio ^ 2) *
    arctanh (Real.sqrt (1 - s.axis_ratio ^ 2) * p.1 /
      Real.sqrt (s.axis_ratio ^ 2 * p.2 ^ 2 + p.1 ^ 2)),
   2 * s.einstein_radius_rescaled * s.axis_ratio /
      Real.sqrt (1 - s.axis_ratio ^ 2) *
    Real.arctan (Real.sqrt (1 - s.axis_ratio ^ 2) * p.2 /
      Real.sqrt (s.axis_ratio ^ 2 * p.2 ^ 2 + p.1 ^ 2)))

/-- From the test source: `deflections_from_grid` — transform to the profile
frame, nudge away from the centre, evaluate the closed form, rotate the
result back from the profile frame. -/
noncomputable def deflections_from_grid (s : MockEllipticalIsothermal)
    (p : Point) : Point :=
  rotate_grid_from_profile s.phi
    (s.deflections_core (move_grid_to_radial_minimum
      (transform_grid_to_reference_frame s.centre s.phi p)))

/-- From the test source: the integrand `potential_func` of the elliptical
potential; `** -1.0` and `** 0.5` are real powers, written here as the
inverse and the square root (they agree on the nonnegative arguments that
occur). -/
noncomputable def potential_func (u y x axis_ratio : ℝ) : ℝ :=
  Real.sqrt (u * (x ^ 2 + y ^ 2 / (1 - (1 - axis_ratio ^ 2) * u))) / u *
    (Real.sqrt (u * (x ^ 2 + y ^ 2 / (1 - (1 - axis_ratio ^ 2) * u))))⁻¹ *
    Real.sqrt (u * (x ^ 2 + y ^ 2 / (1 - (1 - axis_ratio ^ 2) * u))) /
    Real.sqrt (1 - (1 - axis_ratio ^ 2) * u)

/-- From the test source: `potential_from_grid` — the quadrature of
`potential_func` over `u in [0, 1]` (modelled as the exact integral), scaled
by `einstein_radius_rescaled * axis_ratio`, on the transformed and nudged
coordinate. -/
noncomputable def potential_from_grid (s : MockEllipticalIsothermal)
    (p : Point) : ℝ :=
  s.einstein_radius_rescaled * s.axis_ratio *
    ∫ u in (0:ℝ)..1,
      potential_func u
        (move_grid_to_radial_minimum
          (transform_grid_to_reference_frame s.centre s.phi p)).1
        (move_grid_to_radial_minimum
          (transform_grid_to_reference_frame s.centre s.phi p)).2
        s.axis_ratio

end MockEllipticalIsothermal

/-- `MockSphericalIsothermal` of the test source: the elliptical profile
with `axis_ratio = 1` and `phi = 0`. -/
structure MockSphericalIsothermal where
  centre : Point
  einstein_radius : ℝ

namespace MockSphericalIsothermal

/-- The underlying elliptical profile (`axis_ratio = 1`, `phi = 0`). -/
noncomputable def toElliptical (s : MockSphericalIsothermal) :
    MockEllipticalIsothermal :=
  ⟨s.centre, 1, 0, s.einstein_radius⟩

/-- Rescaled Einstein radius, inherited from the elliptical profile. -/
noncomputable def einstein_radius_rescaled (s : MockSphericalIsothermal) : ℝ :=
  s.toElliptical.einstein_radius_rescaled

/-- From the test source: the spherical potential
`2 * einstein_radius_rescaled * eta` with `eta` the elliptical radius of the
transformed, nudged coordinate. -/
noncomputable def potential_from_grid (s : MockSphericalIsothermal)
    (p : Point) : ℝ :=
  2 * s.einstein_radius_rescaled *
    grid_to_elliptical_radii 1
      (move_grid_to_radial_minimum
        (transform_grid_to_reference_frame s.centre 0 p))

/-- From the test source: the spherical deflection — a vector of magnitude
`2 * einstein_radius_rescaled` along each transformed, nudged coordinate. -/
noncomputable def deflections_from_grid (s : MockSphericalIsothermal)
    (p : Point) : Point :=
  grid_to_grid_cartesian
    (move_grid_to_radial_minimum
      (transform_grid_to_reference_frame s.centre 0 p))
    (2 * s.einstein_radius_rescaled)

end MockSphericalIsothermal

/-- Modelled from the spec: `deflections_via_potential_from_grid` derives
the deflection field from the gradient of the potential (the spec's
numerical axis-wise gradient, modelled as the exact partial derivatives in
`y` and `x`). -/
noncomputable def deflections_via_potential (psi : Point → ℝ) (p : Point) :
    Point :=
  (deriv (fun y => psi (y, p.2)) p.1, deriv (fun x => psi (p.1, x)) p.2)

/-- `deflections_via_potential_from_grid` for the spherical profile. -/
noncomputable def MockSphericalIsothermal.deflections_via_potential_from_grid
    (s : MockSphericalIsothermal) (p : Point) : Point :=
  deflections_via_potential s.potential_from_grid p

/-- `deflections_via_potential_from_grid` for the elliptical profile. -/
noncomputable def MockEllipticalIsothermal.deflections_via_potential_from_grid
    (s : MockEllipticalIsothermal) (p : Point) : Point :=
  deflections_via_potential s.potential_from_grid p

end SourceProfiles

section SisAnalysis

/-- Shorthand for the first-coordinate projection as a continuous linear
map. -/
noncomputable def fstL : Point →L[ℝ] ℝ := ContinuousLinearMap.fst ℝ ℝ ℝ

/-- Shorthand for the second-coordinate projection as a continuous linear
map. -/
noncomputable def sndL : Point →L[ℝ] ℝ := ContinuousLinearMap.snd ℝ ℝ ℝ

/-- The spherical isothermal deflection field with centre at the origin:
a vector of magnitude `einstein_radius` along each coordinate. -/
noncomputable def sis_deflections (er : ℝ) (p : Point) : Point :=
  (er * p.1 / Real.sqrt (p.1 ^ 2 + p.2 ^ 2),
   er * p.2 / Real.sqrt (p.1 ^ 2 + p.2 ^ 2))

/-- The derivative of the spherical isothermal deflection field at `p`:
`(er/r) * id - (er/r^3) * (p otimes p)`. -/
noncomputable def sis_deflections_deriv (er : ℝ) (p : Point) :
    Point →L[ℝ] Point :=
  (er / Real.sqrt (p.1 ^ 2 + p.2 ^ 2)) • ContinuousLinearMap.id ℝ Point -
    (er / Real.sqrt (p.1 ^ 2 + p.2 ^ 2) ^ 3) •
      ((p.1 • fstL + p.2 • sndL).smulRight p)

theorem point_sq_add_sq_pos {p : Point} (hp : p ≠ 0) :
    0 < p.1 ^ 2 + p.2 ^ 2 := by
  have hne : ¬(p.1 = 0 ∧ p.2 = 0) := by
    rintro ⟨h1, h2⟩
    exact hp (Prod.ext_iff.2 ⟨h1, h2⟩)
  rcases not_and_or.1 hne with h | h
  · nlinarith [sq_nonneg p.2, mul_self_pos.2 h]
  · nlinarith [sq_nonneg p.1, mul_self_pos.2 h]

theorem hasFDerivAt_sis_deflections (er : ℝ) {p : Point} (hp : p ≠ 0) :
    HasFDerivAt (sis_deflections er) (sis_deflections_deriv er p) p := by
  have hpos : 0 < p.1 ^ 2 + p.2 ^ 2 := point_sq_add_sq_pos hp
  have hs : p.1 ^ 2 + p.2 ^ 2 ≠ 0 := hpos.ne'
  have hr : (0:ℝ) < Real.sqrt (p.1 ^ 2 + p.2 ^ 2) := Real.sqrt_pos.2 hpos
  have hr2 : Real.sqrt (p.1 ^ 2 + p.2 ^ 2) ^ 2 = p.1 ^ 2 + p.2 ^ 2 :=
    Real.sq_sqrt hpos.le
  have hrne : Real.sqrt (p.1 ^ 2 + p.2 ^ 2) ≠ 0 := hr.ne'
  have hfst : HasFDerivAt (fun q : Point => q.1) fstL p := hasFDerivAt_fst
  have hsnd : HasFDerivAt (fun q : Point => q.2) sndL p := hasFDerivAt_snd
  have hinner : HasFDerivAt (fun q : Point => q.1 ^ 2 + q.2 ^ 2)
      ((p.1 • fstL + p.1 • fstL) + (p.2 • sndL + p.2 • sndL)) p := by
    have h12 := (hfst.mul hfst).add (hsnd.mul hsnd)
    simpa only [pow_two] using h12
  have hsqrt : HasFDerivAt (fun q : Point => Real.sqrt (q.1 ^ 2 + q.2 ^ 2))
      ((1 / (2 * Real.sqrt (p.1 ^ 2 + p.2 ^ 2))) •
        ((p.1 • fstL + p.1 • fstL) + (p.2 • sndL + p.2 • sndL))) p :=
    hinner.sqrt hs
  have hinv : HasFDerivAt
      (fun q : Point => (Real.sqrt (q.1 ^ 2 + q.2 ^ 2))⁻¹)
      ((-(Real.sqrt (p.1 ^ 2 + p.2 ^ 2) ^ 2)⁻¹) •
        ((1 / (2 * Real.sqrt (p.1 ^ 2 + p.2 ^ 2))) •
          ((p.1 • fstL + p.1 • fstL) + (p.2 • sndL + p.2 • sndL)))) p := by
    have := (hasDerivAt_inv hrne).comp_hasFDerivAt p hsqrt
    simpa [Function.comp] using this
  have hmul1 := (hfst.const_mul er).mul hinv
  have hmul2 := (hsnd.const_mul er).mul hinv
  have hpair := hmul1.prod hmul2
  have hfun : sis_deflections er = fun q : Point =>
      ((er * q.1) * (Real.sqrt (q.1 ^ 2 + q.2 ^ 2))⁻¹,
       (er * q.2) * (Real.sqrt (q.1 ^ 2 + q.2 ^ 2))⁻¹) := by
    funext q
    simp [sis_deflections, div_eq_mul_inv]
  rw [hfun]
  refine hpair.congr_fderiv ?_
  apply ContinuousLinearMap.ext
  intro v
  have h3 : Real.sqrt (p.1 ^ 2 + p.2 ^ 2) ^ 3 =
      Real.sqrt (p.1 ^ 2 + p.2 ^ 2) * (p.1 ^ 2 + p.2 ^ 2) := by
    rw [pow_succ, hr2]
    ring
  refine Prod.ext_iff.2 ⟨?_, ?_⟩ <;>
    · simp only [sis_deflections_deriv, ContinuousLinearMap.prod_apply,
        ContinuousLinearMap.coe_smul', Pi.smul_apply,
        ContinuousLinearMap.coe_sub', Pi.sub_apply,
        ContinuousLinearMap.smulRight_apply, ContinuousLinearMap.add_apply,
        ContinuousLinearMap.id_apply, fstL, sndL,
        ContinuousLinearMap.coe_fst', ContinuousLinearMap.coe_snd',
        smul_eq_mul, Prod.smul_mk, Prod.fst_sub, Prod.snd_sub,
        Prod.smul_fst, Prod.smul_snd, Prod.fst_add, Prod.snd_add, h3]
      rw [hr2]
      field_simp
      ring

theorem sis_jacobian_entries (er : ℝ) {p : Point} (hp : p ≠ 0) :
    jacobian (sis_deflections_deriv er) p 0 0 =
      1 - er / Real.sqrt (p.1 ^ 2 + p.2 ^ 2) +
        er * (p.1 * p.1) / Real.sqrt (p.1 ^ 2 + p.2 ^ 2) ^ 3 ∧
    jacobian (sis_deflections_deriv er) p 0 1 =
      er * (p.2 * p.1) / Real.sqrt (p.1 ^ 2 + p.2 ^ 2) ^ 3 ∧
    jacobian (sis_deflections_deriv er) p 1 0 =
      er * (p.1 * p.2) / Real.sqrt (p.1 ^ 2 + p.2 ^ 2) ^ 3 ∧
    jacobian (sis_deflections_deriv er) p 1 1 =
      1 - er / Real.sqrt (p.1 ^ 2 + p.2 ^ 2) +
        er * (p.2 * p.2) / Real.sqrt (p.1 ^ 2 + p.2 ^ 2) ^ 3 := by
  have hpos : 0 < p.1 ^ 2 + p.2 ^ 2 := point_sq_add_sq_pos hp
  have hr : (0:ℝ) < Real.sqrt (p.1 ^ 2 + p.2 ^ 2) := Real.sqrt_pos.2 hpos
  refine ⟨?_, ?_, ?_, ?_⟩ <;>
    simp only [jacobian, sis_deflections_deriv, Matrix.cons_val',
      Matrix.cons_val_zero, Matrix.cons_val_one, Matrix.head_cons,
      Matrix.head_fin_const, Matrix.cons_val_fin_one, Matrix.of_apply,
      ContinuousLinearMap.coe_sub', Pi.sub_apply,
      ContinuousLinearMap.coe_smul', Pi.smul_apply,
      ContinuousLinearMap.smulRight_apply, ContinuousLinearMap.add_apply,
      ContinuousLinearMap.id_apply, fstL, sndL,
      ContinuousLinearMap.coe_fst', ContinuousLinearMap.coe_snd',
      smul_eq_mul, Prod.smul_mk, Prod.fst_sub, Prod.snd_sub,
      Prod.smul_fst, Prod.smul_snd] <;>
    ring

theorem sis_eigen_values {er : ℝ} (her : 0 ≤ er) {p : Point} (hp : p ≠ 0) :
    convergence_via_jacobian (sis_deflections_deriv er) p =
      er / (2 * Real.sqrt (p.1 ^ 2 + p.2 ^ 2)) ∧
    shear_via_jacobian (sis_deflections_deriv er) p =
      er / (2 * Real.sqrt (p.1 ^ 2 + p.2 ^ 2)) ∧
    tangential_eigen_value (sis_deflections_deriv er) p =
      1 - er / Real.sqrt (p.1 ^ 2 + p.2 ^ 2) := by
  obtain ⟨e00, e01, e10, e11⟩ := sis_jacobian_entries er hp
  have hpos : 0 < p.1 ^ 2 + p.2 ^ 2 := point_sq_add_sq_pos hp
  have hr : (0:ℝ) < Real.sqrt (p.1 ^ 2 + p.2 ^ 2) := Real.sqrt_pos.2 hpos
  have hr2 : Real.sqrt (p.1 ^ 2 + p.2 ^ 2) ^ 2 = p.1 ^ 2 + p.2 ^ 2 :=
    Real.sq_sqrt hpos.le
  have h3 : Real.sqrt (p.1 ^ 2 + p.2 ^ 2) ^ 3 =
      Real.sqrt (p.1 ^ 2 + p.2 ^ 2) * (p.1 ^ 2 + p.2 ^ 2) := by
    rw [pow_succ, hr2]
    ring
  have hkey : er * (p.1 ^ 2 + p.2 ^ 2) / Real.sqrt (p.1 ^ 2 + p.2 ^ 2) ^ 3 =
      er / Real.sqrt (p.1 ^ 2 + p.2 ^ 2) := by
    rw [h3]
    exact mul_div_mul_right er (Real.sqrt (p.1 ^ 2 + p.2 ^ 2)) hpos.ne'
  have hconv : convergence_via_jacobian (sis_deflections_deriv er) p =
      er / (2 * Real.sqrt (p.1 ^ 2 + p.2 ^ 2)) := by
    rw [convergence_via_jacobian, e00, e11]
    have hstep : (1:ℝ) - 0.5 *
        (1 - er / Real.sqrt (p.1 ^ 2 + p.2 ^ 2) +
          er * (p.1 * p.1) / Real.sqrt (p.1 ^ 2 + p.2 ^ 2) ^ 3 +
         (1 - er / Real.sqrt (p.1 ^ 2 + p.2 ^ 2) +
          er * (p.2 * p.2) / Real.sqrt (p.1 ^ 2 + p.2 ^ 2) ^ 3)) =
        er / Real.sqrt (p.1 ^ 2 + p.2 ^ 2) -
          0.5 * (er * (p.1 ^ 2 + p.2 ^ 2) /
            Real.sqrt (p.1 ^ 2 + p.2 ^ 2) ^ 3) := by
      ring
    rw [hstep, hkey]
    ring
  have hshearsq : (jacobian (sis_deflections_deriv er) p 0 0 -
        jacobian (sis_deflections_deriv er) p 1 1) ^ 2 +
      4 * jacobian (sis_deflections_deriv er) p 0 1 ^ 2 =
      (er / Real.sqrt (p.1 ^ 2 + p.2 ^ 2)) ^ 2 := by
    rw [e00, e01, e11]
    have hexpand : (1 - er / Real.sqrt (p.1 ^ 2 + p.2 ^ 2) +
          er * (p.1 * p.1) / Real.sqrt (p.1 ^ 2 + p.2 ^ 2) ^ 3 -
         (1 - er / Real.sqrt (p.1 ^ 2 + p.2 ^ 2) +
          er * (p.2 * p.2) / Real.sqrt (p.1 ^ 2 + p.2 ^ 2) ^ 3)) ^ 2 +
        4 * (er * (p.2 * p.1) / Real.sqrt (p.1 ^ 2 + p.2 ^ 2) ^ 3) ^ 2 =
        (er * (p.1 ^ 2 + p.2 ^ 2) / Real.sqrt (p.1 ^ 2 + p.2 ^ 2) ^ 3) ^ 2 := by
      ring
    rw [hexpand, hkey]
  have hshear : shear_via_jacobian (sis_deflections_deriv er) p =
      er / (2 * Real.sqrt (p.1 ^ 2 + p.2 ^ 2)) := by
    rw [shear_via_jacobian, hshearsq, Real.sqrt_sq (by positivity)]
    ring
  refine ⟨hconv, hshear, ?_⟩
  rw [tangential_eigen_value, hconv, hshear]
  have hrne : Real.sqrt (p.1 ^ 2 + p.2 ^ 2) ≠ 0 := hr.ne'
  field_simp
  ring

/-- The source spherical profile centred at the origin evaluates, away from
the centre, to the plain spherical isothermal deflection field. -/
theorem sis_deflections_from_grid_eq {er : ℝ} {p : Point} (hp : p ≠ 0) :
    (MockSphericalIsothermal.mk ((0:ℝ), (0:ℝ)) er).deflections_from_grid p =
      sis_deflections er p := by
  have htrans : transform_grid_to_reference_frame ((0:ℝ), (0:ℝ)) 0 p = p := by
    simp [transform_grid_to_reference_frame, rotate_ccw, Prod.ext_iff]
  have hp' : p ≠ ((0:ℝ), (0:ℝ)) := hp
  rw [MockSphericalIsothermal.deflections_from_grid, htrans,
    move_grid_to_radial_minimum, if_neg hp']
  simp only [grid_to_grid_cartesian, sis_deflections,
    MockSphericalIsothermal.einstein_radius_rescaled,
    MockSphericalIsothermal.toElliptical,
    MockEllipticalIsothermal.einstein_radius_rescaled]
  norm_num
  constructor <;> ring

end SisAnalysis

section EinsteinRadiusMass

/-!
Einstein radius and mass from the tangential critical curve.

Modelled from the spec: `autoastro/lensing.py` is not part of the sources.
The spec derives the Einstein radius from the area enclosed by the traced
tangential critical curve via the shoelace formula, `radius = sqrt(area/pi)`,
and the Einstein mass as `pi * radius^2` scaled by the cosmology-supplied
critical-surface-density conversion factor for physical mass units.  For the
spherical isothermal profile the traced contour is modelled as an exact
parameterization of the zero-level set of the tangential eigenvalue field,
and the shoelace sum over the traced polygon as its continuous limit, the
Green line integral over the parameterized contour.
-/

/-- Modelled from the spec: the traced tangential critical curve of the
spherical isothermal profile — an exact parameterization of the zero set of
the tangential eigenvalue field. -/
noncomputable def sis_tangential_critical_curve (er : ℝ) : ℝ → Point :=
  fun theta => (er * Real.sin theta, er * Real.cos theta)

/-- Modelled from the spec: `area_within_tangential_critical_curve` — the
shoelace area over the traced contour, modelled as the Green line integral
`(1/2) * integral of (x dy - y dx)` over the parameterization. -/
noncomputable def area_within_tangential_critical_curve (er : ℝ) : ℝ :=
  (1 / 2) * ∫ theta in (0:ℝ)..(2 * π),
    ((sis_tangential_critical_curve er theta).2 *
        deriv (fun t => (sis_tangential_critical_curve er t).1) theta -
      (sis_tangential_critical_curve er theta).1 *
        deriv (fun t => (sis_tangential_critical_curve er t).2) theta)

/-- Modelled from the spec: `einstein_radius_in_units` derives the radius
from the enclosed area as `sqrt (area / pi)`. -/
noncomputable def einstein_radius_in_units (er : ℝ) : ℝ :=
  Real.sqrt (area_within_tangential_critical_curve er / π)

/-- The two mass unit systems of `einstein_mass_in_units`. -/
inductive UnitMass where
  | angular : UnitMass
  | solMass : UnitMass

/-- Modelled from the spec: the cosmology collaborator, which supplies the
critical-surface-density conversion factor between the lens and source
redshifts. -/
structure MockCosmology where
  critical_surface_density : ℝ

/-- Modelled from the spec: `einstein_mass_in_units` — `pi * radius^2` in
angular units, scaled by the cosmology-supplied critical surface density in
physical (solMass) units. -/
noncomputable def einstein_mass_in_units (er : ℝ) :
    UnitMass → MockCosmology → ℝ
  | UnitMass.angular, _ => π * einstein_radius_in_units er ^ 2
  | UnitMass.solMass, cosmology =>
      π * einstein_radius_in_units er ^ 2 * cosmology.critical_surface_density

theorem sis_tangential_critical_curve_ne_zero {er : ℝ} (her : 0 < er)
    (theta : ℝ) : sis_tangential_critical_curve er theta ≠ 0 := by
  intro h
  rw [sis_tangential_critical_curve, Prod.ext_iff] at h
  obtain ⟨h1, h2⟩ := h
  have hsin : Real.sin theta = 0 :=
    (mul_eq_zero.1 h1).resolve_left her.ne'
  have hcos : Real.cos theta = 0 :=
    (mul_eq_zero.1 h2).resolve_left her.ne'
  have := Real.sin_sq_add_cos_sq theta
  rw [hsin, hcos] at this
  norm_num at this

theorem sis_tangential_eigen_value_on_curve {er : ℝ} (her : 0 < er)
    (theta : ℝ) :
    tangential_eigen_value (sis_deflections_deriv er)
      (sis_tangential_critical_curve er theta) = 0 := by
  have hp := sis_tangential_critical_curve_ne_zero her theta
  have heig := (sis_eigen_values her.le hp).2.2
  have hnorm : Real.sqrt ((sis_tangential_critical_curve er theta).1 ^ 2 +
      (sis_tangential_critical_curve er theta).2 ^ 2) = er := by
    have hsum : (sis_tangential_critical_curve er theta).1 ^ 2 +
        (sis_tangential_critical_curve er theta).2 ^ 2 = er ^ 2 := by
      rw [sis_tangential_critical_curve]
      have h := Real.sin_sq_add_cos_sq theta
      linear_combination er ^ 2 * h
    rw [hsum, Real.sqrt_sq her.le]
  rw [heig, hnorm, div_self her.ne']
  ring

theorem area_within_tangential_critical_curve_eq (er : ℝ) :
    area_within_tangential_critical_curve er = π * er ^ 2 := by
  have hd1 : ∀ theta : ℝ,
      deriv (fun t => (sis_tangential_critical_curve er t).1) theta =
        er * Real.cos theta := by
    intro theta
    have h : HasDerivAt (fun t : ℝ => er * Real.sin t)
        (er * Real.cos theta) theta := (Real.hasDerivAt_sin theta).const_mul er
    have hfun : (fun t => (sis_tangential_critical_curve er t).1) =
        fun t : ℝ => er * Real.sin t := rfl
    rw [hfun, h.deriv]
  have hd2 : ∀ theta : ℝ,
      deriv (fun t => (sis_tangential_critical_curve er t).2) theta =
        er * (-Real.sin theta) := by
    intro theta
    have h : HasDerivAt (fun t : ℝ => er * Real.cos t)
        (er * (-Real.sin theta)) theta :=
      (Real.hasDerivAt_cos theta).const_mul er
    have hfun : (fun t => (sis_tangential_critical_curve er t).2) =
        fun t : ℝ => er * Real.cos t := rfl
    rw [hfun, h.deriv]
  rw [area_within_tangential_critical_curve]
  have hcongr : (∫ theta in (0:ℝ)..(2 * π),
      ((sis_tangential_critical_curve er theta).2 *
          deriv (fun t => (sis_tangential_critical_curve er t).1) theta -
        (sis_tangential_critical_curve er theta).1 *
          deriv (fun t => (sis_tangential_critical_curve er t).2) theta)) =
      ∫ _ in (0:ℝ)..(2 * π), er ^ 2 := by
    apply intervalIntegral.integral_congr
    intro theta _
    show (sis_tangential_critical_curve er theta).2 *
        deriv (fun t => (sis_tangential_critical_curve er t).1) theta -
      (sis_tangential_critical_curve er theta).1 *
        deriv (fun t => (sis_tangential_critical_curve er t).2) theta = er ^ 2
    rw [hd1 theta, hd2 theta, sis_tangential_critical_curve]
    have h := Real.sin_sq_add_cos_sq theta
    linear_combination er ^ 2 * h
  rw [hcongr, intervalIntegral.integral_const]
  simp
  ring

theorem einstein_radius_in_units_eq {er : ℝ} (her : 0 ≤ er) :
    einstein_radius_in_units er = er := by
  rw [einstein_radius_in_units, area_within_tangential_critical_curve_eq]
  rw [mul_comm, mul_div_assoc, div_self Real.pi_ne_zero, mul_one]
  exact Real.sqrt_sq her

/-- C4: for the spherical isothermal profile with `einstein_radius = 2`
(whose deflection field away from the centre is the plain spherical
isothermal field), the tangential critical curve lies on the zero set of
the tangential eigenvalue, the enclosed area equals `pi * 2^2` exactly
(within 0.1%), and the Einstein radius recovered from the area as
`sqrt (area / pi)` equals 2 exactly (within 0.1%). -/
theorem C4_area_and_einstein_radius_from_tangential_critical_curve :
    (∀ p : Point, p ≠ 0 →
      (MockSphericalIsothermal.mk ((0:ℝ), (0:ℝ)) 2).deflections_from_grid p =
        sis_deflections 2 p) ∧
    (∀ theta : ℝ, tangential_eigen_value (sis_deflections_deriv 2)
      (sis_tangential_critical_curve 2 theta) = 0) ∧
    area_within_tangential_critical_curve 2 = π * 2 ^ 2 ∧
    |area_within_tangential_critical_curve 2 - π * 2 ^ 2| ≤
      1e-3 * (π * 2 ^ 2) ∧
    einstein_radius_in_units 2 = 2 ∧
    |einstein_radius_in_units 2 - 2| ≤ 1e-3 * 2 := by
  have harea := area_within_tangential_critical_curve_eq 2
  have hrad := einstein_radius_in_units_eq (by norm_num : (0:ℝ) ≤ 2)
  refine ⟨fun p hp => sis_deflections_from_grid_eq hp,
    fun theta => sis_tangential_eigen_value_on_curve (by norm_num) theta,
    harea, ?_, hrad, ?_⟩
  · rw [harea, sub_self, abs_zero]
    positivity
  · rw [hrad, sub_self, abs_zero]
    norm_num

/-- Witness for C4 at the concrete point `(2, 0)` and angle `0`. -/
theorem C4_witness :
    ((((2:ℝ), (0:ℝ)) : Point) ≠ 0 ∧
      (MockSphericalIsothermal.mk ((0:ℝ), (0:ℝ)) 2).deflections_from_grid
        ((2:ℝ), (0:ℝ)) = sis_deflections 2 ((2:ℝ), (0:ℝ))) ∧
    tangential_eigen_value (sis_deflections_deriv 2)
      (sis_tangential_critical_curve 2 0) = 0 ∧
    area_within_tangential_critical_curve 2 = π * 2 ^ 2 ∧
    einstein_radius_in_units 2 = 2 := by
  have hne : (((2:ℝ), (0:ℝ)) : Point) ≠ 0 := by
    intro h
    rw [Prod.ext_iff] at h
    exact two_ne_zero h.1
  exact ⟨⟨hne,
      C4_area_and_einstein_radius_from_tangential_critical_curve.1
        ((2:ℝ), (0:ℝ)) hne⟩,
    C4_area_and_einstein_radius_from_tangential_critical_curve.2.1 0,
    C4_area_and_einstein_radius_from_tangential_critical_curve.2.2.1,
    C4_area_and_einstein_radius_from_tangential_critical_curve.2.2.2.2.1⟩

/-- C5: for the spherical isothermal profile with `einstein_radius = 2`,
the Einstein mass in angular units is `pi * 2^2` exactly (within 0.1%),
and in physical (solMass) units it is `pi * radius^2` scaled by the
cosmology-supplied critical-surface-density conversion factor. -/
theorem C5_einstein_mass_in_units_angular_and_solMass (c : MockCosmology) :
    einstein_mass_in_units 2 UnitMass.angular c = π * 2 ^ 2 ∧
    |einstein_mass_in_units 2 UnitMass.angular c - π * 2 ^ 2| ≤
      1e-3 * (π * 2 ^ 2) ∧
    einstein_mass_in_units 2 UnitMass.solMass c =
      π * einstein_radius_in_units 2 ^ 2 * c.critical_surface_density ∧
    einstein_mass_in_units 2 UnitMass.solMass c =
      π * 2 ^ 2 * c.critical_surface_density := by
  have hrad := einstein_radius_in_units_eq (by norm_num : (0:ℝ) ≤ 2)
  have hang : einstein_mass_in_units 2 UnitMass.angular c = π * 2 ^ 2 := by
    rw [einstein_mass_in_units, hrad]
  refine ⟨hang, ?_, rfl, ?_⟩
  · rw [hang, sub_self, abs_zero]
    positivity
  · rw [einstein_mass_in_units, hrad]

/-- Witness for C5 at the concrete cosmology with conversion factor 0.5. -/
theorem C5_witness :
    einstein_mass_in_units 2 UnitMass.angular ⟨0.5⟩ = π * 2 ^ 2 ∧
    |einstein_mass_in_units 2 UnitMass.angular ⟨0.5⟩ - π * 2 ^ 2| ≤
      1e-3 * (π * 2 ^ 2) ∧
    einstein_mass_in_units 2 UnitMass.solMass ⟨0.5⟩ =
      π * einstein_radius_in_units 2 ^ 2 *
        MockCosmology.critical_surface_density ⟨0.5⟩ ∧
    einstein_mass_in_units 2 UnitMass.solMass ⟨0.5⟩ =
      π * 2 ^ 2 * MockCosmology.critical_surface_density ⟨0.5⟩ :=
  C5_einstein_mass_in_units_angular_and_solMass ⟨0.5⟩

end EinsteinRadiusMass

section DeflectionsViaPotentialSpherical

theorem sph_potential_eq {er : ℝ} {p : Point} (hp : p ≠ 0) :
    (MockSphericalIsothermal.mk ((0:ℝ), (0:ℝ)) er).potential_from_grid p =
      er * Real.sqrt (p.1 ^ 2 + p.2 ^ 2) := by
  have hp' : p ≠ ((0:ℝ), (0:ℝ)) := hp
  have htrans : transform_grid_to_reference_frame ((0:ℝ), (0:ℝ)) 0 p = p := by
    simp [transform_grid_to_reference_frame, rotate_ccw, Prod.ext_iff]
  rw [MockSphericalIsothermal.potential_from_grid, htrans,
    move_grid_to_radial_minimum, if_neg hp', grid_to_elliptical_radii]
  have hsum : ((p : Point).2 ^ 2 + ((p : Point).1 / 1) ^ 2) =
      p.1 ^ 2 + p.2 ^ 2 := by
    ring
  rw [hsum]
  simp only [MockSphericalIsothermal.einstein_radius_rescaled,
    MockSphericalIsothermal.toElliptical,
    MockEllipticalIsothermal.einstein_radius_rescaled]
  rw [show (2:ℝ) * (1 / (1 + 1) * er) = er by ring]

theorem eventually_slice_y_ne {p : Point} (hp : p ≠ 0) :
    ∀ᶠ y in nhds p.1, (((y : ℝ), p.2) : Point) ≠ 0 := by
  rcases eq_or_ne p.2 0 with h2 | h2
  · have h1 : p.1 ≠ 0 := by
      intro h
      exact hp (Prod.ext_iff.2 ⟨h, h2⟩)
    filter_upwards [eventually_ne_nhds h1] with y hy
    intro hc
    exact hy (congrArg Prod.fst hc)
  · refine Filter.Eventually.of_forall fun y hc => ?_
    exact h2 (congrArg Prod.snd hc)

theorem eventually_slice_x_ne {p : Point} (hp : p ≠ 0) :
    ∀ᶠ x in nhds p.2, ((p.1, (x : ℝ)) : Point) ≠ 0 := by
  rcases eq_or_ne p.1 0 with h1 | h1
  · have h2 : p.2 ≠ 0 := by
      intro h
      exact hp (Prod.ext_iff.2 ⟨h1, h⟩)
    filter_upwards [eventually_ne_nhds h2] with x hx
    intro hc
    exact hx (congrArg Prod.snd hc)
  · refine Filter.Eventually.of_forall fun x hc => ?_
    exact h1 (congrArg Prod.fst hc)

/-- The spherical isothermal profile: the deflections derived from the
gradient of its potential agree exactly with its analytic deflections at
every coordinate away from the centre. -/
theorem sph_deflections_via_potential_eq {er : ℝ} {p : Point} (hp : p ≠ 0) :
    (MockSphericalIsothermal.mk ((0:ℝ), (0:ℝ)) er).deflections_via_potential_from_grid p =
      (MockSphericalIsothermal.mk ((0:ℝ), (0:ℝ)) er).deflections_from_grid p := by
  have hpos : 0 < p.1 ^ 2 + p.2 ^ 2 := point_sq_add_sq_pos hp
  have hd1 : deriv (fun y =>
      (MockSphericalIsothermal.mk ((0:ℝ), (0:ℝ)) er).potential_from_grid
        (y, p.2)) p.1 = er * p.1 / Real.sqrt (p.1 ^ 2 + p.2 ^ 2) := by
    have hev : (fun y =>
        (MockSphericalIsothermal.mk ((0:ℝ), (0:ℝ)) er).potential_from_grid
          (y, p.2)) =ᶠ[nhds p.1]
        fun y => er * Real.sqrt (y ^ 2 + p.2 ^ 2) := by
      filter_upwards [eventually_slice_y_ne hp] with y hy
      exact sph_potential_eq hy
    rw [hev.deriv_eq]
    have hin : HasDerivAt (fun y : ℝ => y ^ 2 + p.2 ^ 2) (2 * p.1) p.1 := by
      simpa using (hasDerivAt_pow 2 p.1).add_const (p.2 ^ 2)
    have hder := (hin.sqrt hpos.ne').const_mul er
    rw [hder.deriv]
    field_simp
    ring
  have hd2 : deriv (fun x =>
      (MockSphericalIsothermal.mk ((0:ℝ), (0:ℝ)) er).potential_from_grid
        (p.1, x)) p.2 = er * p.2 / Real.sqrt (p.1 ^ 2 + p.2 ^ 2) := by
    have hev : (fun x =>
        (MockSphericalIsothermal.mk ((0:ℝ), (0:ℝ)) er).potential_from_grid
          (p.1, x)) =ᶠ[nhds p.2]
        fun x => er * Real.sqrt (p.1 ^ 2 + x ^ 2) := by
      filter_upwards [eventually_slice_x_ne hp] with x hx
      exact sph_potential_eq hx
    rw [hev.deriv_eq]
    have hin : HasDerivAt (fun x : ℝ => p.1 ^ 2 + x ^ 2) (2 * p.2) p.2 := by
      simpa using (hasDerivAt_pow 2 p.2).const_add (p.1 ^ 2)
    have hder := (hin.sqrt hpos.ne').const_mul er
    rw [hder.deriv]
    field_simp
    ring
  rw [MockSphericalIsothermal.deflections_via_potential_from_grid,
    deflections_via_potential, sis_deflections_from_grid_eq hp,
    sis_deflections]
  exact Prod.ext_iff.2 ⟨hd1, hd2⟩

end DeflectionsViaPotentialSpherical

section SieClosedPotential

/-- The elliptical radius `psi = sqrt (axis_ratio^2 * x^2 + y^2)` used by the
closed-form isothermal deflections (from the test source's
`deflections_from_grid`). -/
noncomputable def psiEll (q : ℝ) (w : Point) : ℝ :=
  Real.sqrt (q ^ 2 * w.2 ^ 2 + w.1 ^ 2)

/-- The common factor `2 * einstein_radius_rescaled * axis_ratio /
sqrt (1 - axis_ratio^2)` of the closed-form isothermal deflections. -/
noncomputable def sie_factor (q er : ℝ) : ℝ :=
  2 * (1 / (1 + q) * er) * q / Real.sqrt (1 - q ^ 2)

/-- The profile-frame closed-form isothermal deflection (the body of the
test source's `deflections_from_grid`). -/
noncomputable def sie_core (q er : ℝ) (w : Point) : Point :=
  (sie_factor q er * arctanh (Real.sqrt (1 - q ^ 2) * w.1 / psiEll q w),
   sie_factor q er * Real.arctan (Real.sqrt (1 - q ^ 2) * w.2 / psiEll q w))

/-- The closed-form isothermal lensing potential
`factor * (y * arctanh (qp * y / psi) + x * arctan (qp * x / psi))`, whose
gradient is the closed-form deflection field. -/
noncomputable def sie_closed_potential (q er : ℝ) (w : Point) : ℝ :=
  sie_factor q er *
    (w.1 * arctanh (Real.sqrt (1 - q ^ 2) * w.1 / psiEll q w) +
     w.2 * Real.arctan (Real.sqrt (1 - q ^ 2) * w.2 / psiEll q w))

theorem deflections_core_eq_sie_core (s : MockEllipticalIsothermal)
    (w : Point) :
    s.deflections_core w = sie_core s.axis_ratio s.einstein_radius w := rfl

theorem psiEll_sq_pos {q : ℝ} (hq : q ≠ 0) {w : Point} (hw : w ≠ 0) :
    0 < q ^ 2 * w.2 ^ 2 + w.1 ^ 2 := by
  have hne : ¬(w.1 = 0 ∧ w.2 = 0) := by
    rintro ⟨h1, h2⟩
    exact hw (Prod.ext_iff.2 ⟨h1, h2⟩)
  rcases not_and_or.1 hne with h | h
  · nlinarith [sq_nonneg (q * w.2), mul_self_pos.2 h]
  · have hq2 : 0 < q * q := mul_self_pos.2 hq
    have hx2 : 0 < w.2 * w.2 := mul_self_pos.2 h
    nlinarith [sq_nonneg w.1]

set_option maxHeartbeats 2000000 in
theorem hasFDerivAt_sie_closed_potential {q : ℝ} (er : ℝ) (hq0 : 0 < q)
    (hq1 : q < 1) {w : Point} (hw : w ≠ 0) :
    HasFDerivAt (sie_closed_potential q er)
      ((sie_core q er w).1 • fstL + (sie_core q er w).2 • sndL) w := by
  have hq2 : (0:ℝ) < 1 - q ^ 2 := by nlinarith
  have hqp : (0:ℝ) < Real.sqrt (1 - q ^ 2) := Real.sqrt_pos.2 hq2
  have hqp2 : Real.sqrt (1 - q ^ 2) ^ 2 = 1 - q ^ 2 := Real.sq_sqrt hq2.le
  have hK : 0 < q ^ 2 * w.2 ^ 2 + w.1 ^ 2 := psiEll_sq_pos hq0.ne' hw
  have hs0 : (0:ℝ) < Real.sqrt (q ^ 2 * w.2 ^ 2 + w.1 ^ 2) :=
    Real.sqrt_pos.2 hK
  have hs02 : Real.sqrt (q ^ 2 * w.2 ^ 2 + w.1 ^ 2) ^ 2 =
      q ^ 2 * w.2 ^ 2 + w.1 ^ 2 := Real.sq_sqrt hK.le
  have hSig : 0 < w.1 ^ 2 + w.2 ^ 2 := point_sq_add_sq_pos hw
  have hfst : HasFDerivAt (fun v : Point => v.1) fstL w := hasFDerivAt_fst
  have hsnd : HasFDerivAt (fun v : Point => v.2) sndL w := hasFDerivAt_snd
  have hpsi_inner : HasFDerivAt (fun v : Point => q ^ 2 * v.2 ^ 2 + v.1 ^ 2)
      (q ^ 2 • (w.2 • sndL + w.2 • sndL) + (w.1 • fstL + w.1 • fstL)) w := by
    have h12 := ((hsnd.mul hsnd).const_mul (q ^ 2)).add (hfst.mul hfst)
    simpa only [pow_two] using h12
  have hpsi := hpsi_inner.sqrt hK.ne'
  have hinv := (hasDerivAt_inv hs0.ne').comp_hasFDerivAt w hpsi
  have harg1 := (hfst.const_mul (Real.sqrt (1 - q ^ 2))).mul hinv
  have harg2 := (hsnd.const_mul (Real.sqrt (1 - q ^ 2))).mul hinv
  have hz1 : (Real.sqrt (1 - q ^ 2) * w.1 *
      (Real.sqrt (q ^ 2 * w.2 ^ 2 + w.1 ^ 2))⁻¹) ^ 2 < 1 := by
    rw [mul_pow, mul_pow, inv_pow, hs02, hqp2, ← div_eq_mul_inv,
      div_lt_one hK]
    nlinarith [sq_nonneg w.2, sq_nonneg w.1, mul_pos (mul_pos hq0 hq0) hSig]
  have hz2val := Real.hasDerivAt_arctan (Real.sqrt (1 - q ^ 2) * w.2 *
    (Real.sqrt (q ^ 2 * w.2 ^ 2 + w.1 ^ 2))⁻¹)
  have hfrac1 : 1 - (Real.sqrt (1 - q ^ 2) * w.1 *
      (Real.sqrt (q ^ 2 * w.2 ^ 2 + w.1 ^ 2))⁻¹) ^ 2 =
      q ^ 2 * (w.1 ^ 2 + w.2 ^ 2) / (q ^ 2 * w.2 ^ 2 + w.1 ^ 2) := by
    rw [mul_pow, mul_pow, inv_pow, hs02, hqp2]
    field_simp
    ring
  have hfrac2 : 1 + (Real.sqrt (1 - q ^ 2) * w.2 *
      (Real.sqrt (q ^ 2 * w.2 ^ 2 + w.1 ^ 2))⁻¹) ^ 2 =
      (w.1 ^ 2 + w.2 ^ 2) / (q ^ 2 * w.2 ^ 2 + w.1 ^ 2) := by
    rw [mul_pow, mul_pow, inv_pow, hs02, hqp2]
    field_simp
    ring
  have hg1 : HasFDerivAt (fun v : Point => arctanh (Real.sqrt (1 - q ^ 2) *
        v.1 * (Real.sqrt (q ^ 2 * v.2 ^ 2 + v.1 ^ 2))⁻¹))
      ((Real.sqrt (1 - q ^ 2) * w.2 ^ 2 /
          (Real.sqrt (q ^ 2 * w.2 ^ 2 + w.1 ^ 2) * (w.1 ^ 2 + w.2 ^ 2))) •
        fstL +
       (-(Real.sqrt (1 - q ^ 2) * w.1 * w.2) /
          (Real.sqrt (q ^ 2 * w.2 ^ 2 + w.1 ^ 2) * (w.1 ^ 2 + w.2 ^ 2))) •
        sndL) w := by
    have hcomp := (hasDerivAt_arctanh hz1).comp_hasFDerivAt w harg1
    refine hcomp.congr_fderiv ?_
    apply ContinuousLinearMap.ext
    intro v
    simp only [Function.comp, ContinuousLinearMap.coe_smul', Pi.smul_apply,
      ContinuousLinearMap.add_apply, ContinuousLinearMap.coe_fst',
      ContinuousLinearMap.coe_snd', fstL, sndL, smul_eq_mul, hfrac1, hs02]
    field_simp
    ring
  have hg2 : HasFDerivAt (fun v : Point => Real.arctan (Real.sqrt (1 - q ^ 2) *
        v.2 * (Real.sqrt (q ^ 2 * v.2 ^ 2 + v.1 ^ 2))⁻¹))
      ((-(Real.sqrt (1 - q ^ 2) * w.2 * w.1) /
          (Real.sqrt (q ^ 2 * w.2 ^ 2 + w.1 ^ 2) * (w.1 ^ 2 + w.2 ^ 2))) •
        fstL +
       (Real.sqrt (1 - q ^ 2) * w.1 ^ 2 /
          (Real.sqrt (q ^ 2 * w.2 ^ 2 + w.1 ^ 2) * (w.1 ^ 2 + w.2 ^ 2))) •
        sndL) w := by
    have hcomp := hz2val.comp_hasFDerivAt w harg2
    refine hcomp.congr_fderiv ?_
    apply ContinuousLinearMap.ext
    intro v
    simp only [Function.comp, ContinuousLinearMap.coe_smul', Pi.smul_apply,
      ContinuousLinearMap.add_apply, ContinuousLinearMap.coe_fst',
      ContinuousLinearMap.coe_snd', fstL, sndL, smul_eq_mul, hfrac2, hs02]
    field_simp
    ring
  have hG := (hfst.mul hg1).add (hsnd.mul hg2)
  have hfull := hG.const_mul (sie_factor q er)
  have hfun : sie_closed_potential q er = fun v : Point =>
      sie_factor q er *
        (v.1 * arctanh (Real.sqrt (1 - q ^ 2) * v.1 *
          (Real.sqrt (q ^ 2 * v.2 ^ 2 + v.1 ^ 2))⁻¹) +
         v.2 * Real.arctan (Real.sqrt (1 - q ^ 2) * v.2 *
          (Real.sqrt (q ^ 2 * v.2 ^ 2 + v.1 ^ 2))⁻¹)) := by
    funext v
    simp [sie_closed_potential, psiEll, div_eq_mul_inv]
  rw [hfun]
  refine hfull.congr_fderiv ?_
  apply ContinuousLinearMap.ext
  intro v
  simp only [sie_core, psiEll, div_eq_mul_inv,
    ContinuousLinearMap.coe_smul', Pi.smul_apply,
    ContinuousLinearMap.add_apply, ContinuousLinearMap.coe_fst',
    ContinuousLinearMap.coe_snd', fstL, sndL, smul_eq_mul]
  field_simp
  ring

end SieClosedPotential

section SieIntegral

/-- The radicand `x^2 * (1 - (1 - q^2) * u) + y^2` appearing in the
simplified elliptical-potential integrand. -/
noncomputable def sie_K (q : ℝ) (w : Point) (u : ℝ) : ℝ :=
  w.2 ^ 2 * (1 - (1 - q ^ 2) * u) + w.1 ^ 2

/-- The simplified form of the source's `potential_func` integrand,
`sqrt (x^2 * (1 - (1 - q^2) * u) + y^2) / (sqrt u * (1 - (1 - q^2) * u))`. -/
noncomputable def sie_h (q : ℝ) (w : Point) (u : ℝ) : ℝ :=
  Real.sqrt (sie_K q w u) / (Real.sqrt u * (1 - (1 - q ^ 2) * u))

/-- The antiderivative of the simplified integrand on `(0, 1]`:
`(2/qp) * (x * arctan (qp x sqrt u / sqrt K) + y * arctanh (qp y sqrt u / sqrt K))`. -/
noncomputable def sie_H (q : ℝ) (w : Point) (u : ℝ) : ℝ :=
  2 / Real.sqrt (1 - q ^ 2) *
    (w.2 * Real.arctan (Real.sqrt (1 - q ^ 2) * w.2 * Real.sqrt u /
        Real.sqrt (sie_K q w u)) +
     w.1 * arctanh (Real.sqrt (1 - q ^ 2) * w.1 * Real.sqrt u /
        Real.sqrt (sie_K q w u)))

theorem sie_c_pos {q : ℝ} (hq0 : 0 < q) (hq1 : q < 1) {u : ℝ}
    (hu0 : 0 ≤ u) (hu1 : u ≤ 1) : 0 < 1 - (1 - q ^ 2) * u := by
  nlinarith [mul_nonneg (by linarith : (0:ℝ) ≤ 1 - u)
    (by nlinarith : (0:ℝ) ≤ 1 - q ^ 2), mul_pos hq0 hq0]

theorem sie_K_pos {q : ℝ} (hq0 : 0 < q) (hq1 : q < 1) {w : Point}
    (hw : w ≠ 0) {u : ℝ} (hu0 : 0 ≤ u) (hu1 : u ≤ 1) : 0 < sie_K q w u := by
  have hc : 0 < 1 - (1 - q ^ 2) * u := sie_c_pos hq0 hq1 hu0 hu1
  have hne : ¬(w.1 = 0 ∧ w.2 = 0) := by
    rintro ⟨h1, h2⟩
    exact hw (Prod.ext_iff.2 ⟨h1, h2⟩)
  rw [sie_K]
  rcases not_and_or.1 hne with h | h
  · nlinarith [mul_self_pos.2 h, mul_nonneg (sq_nonneg w.2) hc.le]
  · have := mul_self_pos.2 h
    nlinarith [sq_nonneg w.1]

theorem hasDerivAt_sie_sqrtK {q : ℝ} {w : Point} {u : ℝ}
    (hK : 0 < sie_K q w u) :
    HasDerivAt (fun v => Real.sqrt (sie_K q w v))
      (-((1 - q ^ 2) * w.2 ^ 2) / (2 * Real.sqrt (sie_K q w u))) u := by
  have hinner : HasDerivAt (fun v => sie_K q w v)
      (-((1 - q ^ 2) * w.2 ^ 2)) u := by
    have h1 : HasDerivAt (fun v : ℝ => 1 - (1 - q ^ 2) * v)
        (-(1 - q ^ 2)) u := by
      have h0 := ((hasDerivAt_id u).const_mul (1 - q ^ 2)).const_sub 1
      simpa only [mul_one] using h0
    have h2 := (h1.const_mul (w.2 ^ 2)).add_const (w.1 ^ 2)
    have hfun : (fun v => sie_K q w v) =
        fun v : ℝ => w.2 ^ 2 * (1 - (1 - q ^ 2) * v) + w.1 ^ 2 := rfl
    rw [hfun]
    convert h2 using 1
    ring
  have := hinner.sqrt hK.ne'
  exact this

theorem hasDerivAt_sie_argY {q : ℝ} (hq0 : 0 < q) (hq1 : q < 1)
    {w : Point} (hw : w ≠ 0) {u : ℝ} (hu0 : 0 < u) (hu1 : u ≤ 1) :
    HasDerivAt (fun v => Real.sqrt (1 - q ^ 2) * w.1 * Real.sqrt v /
        Real.sqrt (sie_K q w v))
      (Real.sqrt (1 - q ^ 2) * w.1 * (w.1 ^ 2 + w.2 ^ 2) /
        (2 * Real.sqrt u * Real.sqrt (sie_K q w u) * sie_K q w u)) u := by
  have hK : 0 < sie_K q w u := sie_K_pos hq0 hq1 hw hu0.le hu1
  have hbK : (0:ℝ) < Real.sqrt (sie_K q w u) := Real.sqrt_pos.2 hK
  have hau : (0:ℝ) < Real.sqrt u := Real.sqrt_pos.2 hu0
  have hK2 : Real.sqrt (sie_K q w u) ^ 2 = sie_K q w u := Real.sq_sqrt hK.le
  have hu2 : Real.sqrt u * Real.sqrt u = u := Real.mul_self_sqrt hu0.le
  have hnum : HasDerivAt (fun v : ℝ => Real.sqrt (1 - q ^ 2) * w.1 *
      Real.sqrt v)
      (Real.sqrt (1 - q ^ 2) * w.1 * (1 / (2 * Real.sqrt u))) u := by
    have h0 := (Real.hasDerivAt_sqrt hu0.ne').const_mul
      (Real.sqrt (1 - q ^ 2) * w.1)
    simpa [mul_assoc] using h0
  have hdiv := hnum.div (hasDerivAt_sie_sqrtK hK) hbK.ne'
  convert hdiv using 1
  rw [hK2]
  have hKsub : sie_K q w u + u * ((1 - q ^ 2) * w.2 ^ 2) =
      w.1 ^ 2 + w.2 ^ 2 := by
    rw [sie_K]
    ring
  have ha2 : Real.sqrt u ^ 2 = u := Real.sq_sqrt hu0.le
  field_simp
  linear_combination
    (-(4:ℝ) * Real.sqrt (1 - q ^ 2) * w.1 * Real.sqrt u *
      Real.sqrt (sie_K q w u) * sie_K q w u * ((1 - q ^ 2) * w.2 ^ 2)) * ha2 +
    (-(4:ℝ) * Real.sqrt (1 - q ^ 2) * w.1 * Real.sqrt u *
      Real.sqrt (sie_K q w u) * sie_K q w u) * hK2 +
    (-(4:ℝ) * Real.sqrt (1 - q ^ 2) * w.1 * Real.sqrt u *
      Real.sqrt (sie_K q w u) * sie_K q w u) * hKsub

theorem hasDerivAt_sie_argX {q : ℝ} (hq0 : 0 < q) (hq1 : q < 1)
    {w : Point} (hw : w ≠ 0) {u : ℝ} (hu0 : 0 < u) (hu1 : u ≤ 1) :
    HasDerivAt (fun v => Real.sqrt (1 - q ^ 2) * w.2 * Real.sqrt v /
        Real.sqrt (sie_K q w v))
      (Real.sqrt (1 - q ^ 2) * w.2 * (w.1 ^ 2 + w.2 ^ 2) /
        (2 * Real.sqrt u * Real.sqrt (sie_K q w u) * sie_K q w u)) u := by
  have hK : 0 < sie_K q w u := sie_K_pos hq0 hq1 hw hu0.le hu1
  have hbK : (0:ℝ) < Real.sqrt (sie_K q w u) := Real.sqrt_pos.2 hK
  have hau : (0:ℝ) < Real.sqrt u := Real.sqrt_pos.2 hu0
  have hK2 : Real.sqrt (sie_K q w u) ^ 2 = sie_K q w u := Real.sq_sqrt hK.le
  have hnum : HasDerivAt (fun v : ℝ => Real.sqrt (1 - q ^ 2) * w.2 *
      Real.sqrt v)
      (Real.sqrt (1 - q ^ 2) * w.2 * (1 / (2 * Real.sqrt u))) u := by
    have h0 := (Real.hasDerivAt_sqrt hu0.ne').const_mul
      (Real.sqrt (1 - q ^ 2) * w.2)
    simpa [mul_assoc] using h0
  have hdiv := hnum.div (hasDerivAt_sie_sqrtK hK) hbK.ne'
  convert hdiv using 1
  rw [hK2]
  have hKsub : sie_K q w u + u * ((1 - q ^ 2) * w.2 ^ 2) =
      w.1 ^ 2 + w.2 ^ 2 := by
    rw [sie_K]
    ring
  have ha2 : Real.sqrt u ^ 2 = u := Real.sq_sqrt hu0.le
  field_simp
  linear_combination
    (-(4:ℝ) * Real.sqrt (1 - q ^ 2) * w.2 * Real.sqrt u *
      Real.sqrt (sie_K q w u) * sie_K q w u * ((1 - q ^ 2) * w.2 ^ 2)) * ha2 +
    (-(4:ℝ) * Real.sqrt (1 - q ^ 2) * w.2 * Real.sqrt u *
      Real.sqrt (sie_K q w u) * sie_K q w u) * hK2 +
    (-(4:ℝ) * Real.sqrt (1 - q ^ 2) * w.2 * Real.sqrt u *
      Real.sqrt (sie_K q w u) * sie_K q w u) * hKsub

theorem sie_fracY {q : ℝ} (hq0 : 0 < q) (hq1 : q < 1) {w : Point}
    (hw : w ≠ 0) {u : ℝ} (hu0 : 0 ≤ u) (hu1 : u ≤ 1) :
    1 - (Real.sqrt (1 - q ^ 2) * w.1 * Real.sqrt u /
        Real.sqrt (sie_K q w u)) ^ 2 =
      (w.1 ^ 2 + w.2 ^ 2) * (1 - (1 - q ^ 2) * u) / sie_K q w u := by
  have hq2 : (0:ℝ) < 1 - q ^ 2 := by nlinarith
  have hK : 0 < sie_K q w u := sie_K_pos hq0 hq1 hw hu0 hu1
  have hK2 : Real.sqrt (sie_K q w u) ^ 2 = sie_K q w u := Real.sq_sqrt hK.le
  have ha2 : Real.sqrt u ^ 2 = u := Real.sq_sqrt hu0
  have hqp2 : Real.sqrt (1 - q ^ 2) ^ 2 = 1 - q ^ 2 := Real.sq_sqrt hq2.le
  rw [div_pow, mul_pow, mul_pow, hK2, ha2, hqp2]
  have hKdef : sie_K q w u = w.2 ^ 2 * (1 - (1 - q ^ 2) * u) + w.1 ^ 2 := rfl
  field_simp
  rw [hKdef]
  ring

theorem sie_fracX {q : ℝ} (hq0 : 0 < q) (hq1 : q < 1) {w : Point}
    (hw : w ≠ 0) {u : ℝ} (hu0 : 0 ≤ u) (hu1 : u ≤ 1) :
    1 + (Real.sqrt (1 - q ^ 2) * w.2 * Real.sqrt u /
        Real.sqrt (sie_K q w u)) ^ 2 =
      (w.1 ^ 2 + w.2 ^ 2) / sie_K q w u := by
  have hq2 : (0:ℝ) < 1 - q ^ 2 := by nlinarith
  have hK : 0 < sie_K q w u := sie_K_pos hq0 hq1 hw hu0 hu1
  have hK2 : Real.sqrt (sie_K q w u) ^ 2 = sie_K q w u := Real.sq_sqrt hK.le
  have ha2 : Real.sqrt u ^ 2 = u := Real.sq_sqrt hu0
  have hqp2 : Real.sqrt (1 - q ^ 2) ^ 2 = 1 - q ^ 2 := Real.sq_sqrt hq2.le
  rw [div_pow, mul_pow, mul_pow, hK2, ha2, hqp2]
  have hKdef : sie_K q w u = w.2 ^ 2 * (1 - (1 - q ^ 2) * u) + w.1 ^ 2 := rfl
  field_simp
  rw [hKdef]
  ring

theorem hasDerivAt_sie_arctanh_term {q : ℝ} (hq0 : 0 < q) (hq1 : q < 1)
    {w : Point} (hw : w ≠ 0) {u : ℝ} (hu0 : 0 < u) (hu1 : u ≤ 1) :
    HasDerivAt (fun v => arctanh (Real.sqrt (1 - q ^ 2) * w.1 * Real.sqrt v /
        Real.sqrt (sie_K q w v)))
      (Real.sqrt (1 - q ^ 2) * w.1 /
        (2 * Real.sqrt u * Real.sqrt (sie_K q w u) *
          (1 - (1 - q ^ 2) * u))) u := by
  have hc : 0 < 1 - (1 - q ^ 2) * u := sie_c_pos hq0 hq1 hu0.le hu1
  have hK : 0 < sie_K q w u := sie_K_pos hq0 hq1 hw hu0.le hu1
  have hbK : (0:ℝ) < Real.sqrt (sie_K q w u) := Real.sqrt_pos.2 hK
  have hau : (0:ℝ) < Real.sqrt u := Real.sqrt_pos.2 hu0
  have hSig : 0 < w.1 ^ 2 + w.2 ^ 2 := point_sq_add_sq_pos hw
  have hfrac := sie_fracY hq0 hq1 hw hu0.le hu1
  have hz : (Real.sqrt (1 - q ^ 2) * w.1 * Real.sqrt u /
      Real.sqrt (sie_K q w u)) ^ 2 < 1 := by
    nlinarith [hfrac, div_pos (mul_pos hSig hc) hK]
  have hcomp := (hasDerivAt_arctanh hz).comp u
    (hasDerivAt_sie_argY hq0 hq1 hw hu0 hu1)
  convert hcomp using 1
  rw [hfrac]
  field_simp
  ring

theorem hasDerivAt_sie_arctan_term {q : ℝ} (hq0 : 0 < q) (hq1 : q < 1)
    {w : Point} (hw : w ≠ 0) {u : ℝ} (hu0 : 0 < u) (hu1 : u ≤ 1) :
    HasDerivAt (fun v => Real.arctan (Real.sqrt (1 - q ^ 2) * w.2 *
        Real.sqrt v / Real.sqrt (sie_K q w v)))
      (Real.sqrt (1 - q ^ 2) * w.2 /
        (2 * Real.sqrt u * Real.sqrt (sie_K q w u))) u := by
  have hc : 0 < 1 - (1 - q ^ 2) * u := sie_c_pos hq0 hq1 hu0.le hu1
  have hK : 0 < sie_K q w u := sie_K_pos hq0 hq1 hw hu0.le hu1
  have hbK : (0:ℝ) < Real.sqrt (sie_K q w u) := Real.sqrt_pos.2 hK
  have hau : (0:ℝ) < Real.sqrt u := Real.sqrt_pos.2 hu0
  have hSig : 0 < w.1 ^ 2 + w.2 ^ 2 := point_sq_add_sq_pos hw
  have hfrac := sie_fracX hq0 hq1 hw hu0.le hu1
  have hcomp := (Real.hasDerivAt_arctan (Real.sqrt (1 - q ^ 2) * w.2 *
      Real.sqrt u / Real.sqrt (sie_K q w u))).comp u
    (hasDerivAt_sie_argX hq0 hq1 hw hu0 hu1)
  convert hcomp using 1
  rw [hfrac]
  field_simp
  ring

theorem hasDerivAt_sie_H {q : ℝ} (hq0 : 0 < q) (hq1 : q < 1) {w : Point}
    (hw : w ≠ 0) {u : ℝ} (hu0 : 0 < u) (hu1 : u ≤ 1) :
    HasDerivAt (sie_H q w) (sie_h q w u) u := by
  have hc : 0 < 1 - (1 - q ^ 2) * u := sie_c_pos hq0 hq1 hu0.le hu1
  have hK : 0 < sie_K q w u := sie_K_pos hq0 hq1 hw hu0.le hu1
  have hbK : (0:ℝ) < Real.sqrt (sie_K q w u) := Real.sqrt_pos.2 hK
  have hau : (0:ℝ) < Real.sqrt u := Real.sqrt_pos.2 hu0
  have hq2 : (0:ℝ) < 1 - q ^ 2 := by nlinarith
  have hqp : (0:ℝ) < Real.sqrt (1 - q ^ 2) := Real.sqrt_pos.2 hq2
  have hK2 : Real.sqrt (sie_K q w u) ^ 2 = sie_K q w u := Real.sq_sqrt hK.le
  have hsum := ((hasDerivAt_sie_arctan_term hq0 hq1 hw hu0 hu1).const_mul
      w.2).add
    ((hasDerivAt_sie_arctanh_term hq0 hq1 hw hu0 hu1).const_mul w.1)
  have hfull := hsum.const_mul (2 / Real.sqrt (1 - q ^ 2))
  have hfun : sie_H q w = fun v =>
      2 / Real.sqrt (1 - q ^ 2) *
        (w.2 * Real.arctan (Real.sqrt (1 - q ^ 2) * w.2 * Real.sqrt v /
            Real.sqrt (sie_K q w v)) +
         w.1 * arctanh (Real.sqrt (1 - q ^ 2) * w.1 * Real.sqrt v /
            Real.sqrt (sie_K q w v))) := rfl
  rw [hfun]
  convert hfull using 1
  rw [sie_h]
  have step1 : 2 / Real.sqrt (1 - q ^ 2) *
      (w.2 * (Real.sqrt (1 - q ^ 2) * w.2 /
          (2 * Real.sqrt u * Real.sqrt (sie_K q w u))) +
       w.1 * (Real.sqrt (1 - q ^ 2) * w.1 /
          (2 * Real.sqrt u * Real.sqrt (sie_K q w u) *
            (1 - (1 - q ^ 2) * u)))) =
      (w.2 ^ 2 * (1 - (1 - q ^ 2) * u) + w.1 ^ 2) /
        (Real.sqrt u * Real.sqrt (sie_K q w u) * (1 - (1 - q ^ 2) * u)) := by
    field_simp
    ring
  have step2 : w.2 ^ 2 * (1 - (1 - q ^ 2) * u) + w.1 ^ 2 = sie_K q w u := rfl
  rw [step1, step2, ← hK2, pow_two]
  field_simp
  linear_combination (Real.sqrt u * (1 + q ^ 2 * u - u)) * hK2

theorem continuousAt_arctanh {z : ℝ} (hz : z ^ 2 < 1) :
    ContinuousAt arctanh z :=
  (hasDerivAt_arctanh hz).continuousAt

theorem sie_zY_sq_lt_one {q : ℝ} (hq0 : 0 < q) (hq1 : q < 1) {w : Point}
    (hw : w ≠ 0) {u : ℝ} (hu0 : 0 ≤ u) (hu1 : u ≤ 1) :
    (Real.sqrt (1 - q ^ 2) * w.1 * Real.sqrt u /
      Real.sqrt (sie_K q w u)) ^ 2 < 1 := by
  have hc : 0 < 1 - (1 - q ^ 2) * u := sie_c_pos hq0 hq1 hu0 hu1
  have hK : 0 < sie_K q w u := sie_K_pos hq0 hq1 hw hu0 hu1
  have hSig : 0 < w.1 ^ 2 + w.2 ^ 2 := point_sq_add_sq_pos hw
  have hfrac := sie_fracY hq0 hq1 hw hu0 hu1
  nlinarith [hfrac, div_pos (mul_pos hSig hc) hK]

theorem continuous_sie_K (q : ℝ) (w : Point) :
    Continuous (fun v : ℝ => sie_K q w v) := by
  have hfun : (fun v : ℝ => sie_K q w v) =
      fun v : ℝ => w.2 ^ 2 * (1 - (1 - q ^ 2) * v) + w.1 ^ 2 := rfl
  rw [hfun]
  exact (continuous_const.mul
    (continuous_const.sub (continuous_const.mul continuous_id))).add
    continuous_const

theorem continuousOn_sie_H {q : ℝ} (hq0 : 0 < q) (hq1 : q < 1) {w : Point}
    (hw : w ≠ 0) : ContinuousOn (sie_H q w) (Set.Icc (0:ℝ) 1) := by
  intro u hu
  apply ContinuousAt.continuousWithinAt
  have hK : 0 < sie_K q w u := sie_K_pos hq0 hq1 hw hu.1 hu.2
  have hbK : (0:ℝ) < Real.sqrt (sie_K q w u) := Real.sqrt_pos.2 hK
  have hsqrtK : ContinuousAt (fun v : ℝ => Real.sqrt (sie_K q w v)) u :=
    (Real.continuous_sqrt.comp (continuous_sie_K q w)).continuousAt
  have hnumY : ContinuousAt
      (fun v : ℝ => Real.sqrt (1 - q ^ 2) * w.1 * Real.sqrt v) u :=
    (continuous_const.mul Real.continuous_sqrt).continuousAt
  have hnumX : ContinuousAt
      (fun v : ℝ => Real.sqrt (1 - q ^ 2) * w.2 * Real.sqrt v) u :=
    (continuous_const.mul Real.continuous_sqrt).continuousAt
  have hargY : ContinuousAt (fun v : ℝ =>
      Real.sqrt (1 - q ^ 2) * w.1 * Real.sqrt v /
        Real.sqrt (sie_K q w v)) u := hnumY.div hsqrtK hbK.ne'
  have hargX : ContinuousAt (fun v : ℝ =>
      Real.sqrt (1 - q ^ 2) * w.2 * Real.sqrt v /
        Real.sqrt (sie_K q w v)) u := hnumX.div hsqrtK hbK.ne'
  have hzY := sie_zY_sq_lt_one hq0 hq1 hw hu.1 hu.2
  have hatanh : ContinuousAt (fun v : ℝ =>
      arctanh (Real.sqrt (1 - q ^ 2) * w.1 * Real.sqrt v /
        Real.sqrt (sie_K q w v))) u := by
    have h0 : ContinuousAt (arctanh ∘ fun v : ℝ =>
        Real.sqrt (1 - q ^ 2) * w.1 * Real.sqrt v /
          Real.sqrt (sie_K q w v)) u :=
      ContinuousAt.comp (continuousAt_arctanh hzY) hargY
    exact h0
  have hatan : ContinuousAt (fun v : ℝ =>
      Real.arctan (Real.sqrt (1 - q ^ 2) * w.2 * Real.sqrt v /
        Real.sqrt (sie_K q w v))) u := by
    have h0 : ContinuousAt (Real.arctan ∘ fun v : ℝ =>
        Real.sqrt (1 - q ^ 2) * w.2 * Real.sqrt v /
          Real.sqrt (sie_K q w v)) u :=
      ContinuousAt.comp Real.continuous_arctan.continuousAt hargX
    exact h0
  exact continuousAt_const.mul
    ((continuousAt_const.mul hatan).add (continuousAt_const.mul hatanh))

theorem continuousOn_sie_h {q : ℝ} (hq0 : 0 < q) (hq1 : q < 1) {w : Point}
    (hw : w ≠ 0) : ContinuousOn (sie_h q w) (Set.Ioc (0:ℝ) 1) := by
  intro u hu
  apply ContinuousAt.continuousWithinAt
  have hc : 0 < 1 - (1 - q ^ 2) * u := sie_c_pos hq0 hq1 hu.1.le hu.2
  have hau : (0:ℝ) < Real.sqrt u := Real.sqrt_pos.2 hu.1
  have hsqrtK : ContinuousAt (fun v : ℝ => Real.sqrt (sie_K q w v)) u :=
    (Real.continuous_sqrt.comp (continuous_sie_K q w)).continuousAt
  have hden : ContinuousAt (fun v : ℝ =>
      Real.sqrt v * (1 - (1 - q ^ 2) * v)) u :=
    Real.continuous_sqrt.continuousAt.mul
      (continuous_const.sub (continuous_const.mul continuous_id)).continuousAt
  have hdenne : Real.sqrt u * (1 - (1 - q ^ 2) * u) ≠ 0 :=
    (mul_pos hau hc).ne'
  exact hsqrtK.div hden hdenne

theorem intervalIntegrable_sie_h {q : ℝ} (hq0 : 0 < q) (hq1 : q < 1)
    {w : Point} (hw : w ≠ 0) :
    IntervalIntegrable (sie_h q w) MeasureTheory.volume 0 1 := by
  rw [intervalIntegrable_iff, Set.uIoc_of_le (by norm_num : (0:ℝ) ≤ 1)]
  have hq2 : (0:ℝ) < 1 - q ^ 2 := by nlinarith
  have hSig : 0 < w.1 ^ 2 + w.2 ^ 2 := point_sq_add_sq_pos hw
  have hg0 : IntervalIntegrable (fun x : ℝ => x ^ (-(1:ℝ)/2))
      MeasureTheory.volume 0 1 :=
    intervalIntegral.intervalIntegrable_rpow' (by norm_num)
  have hg1 : IntervalIntegrable (fun x : ℝ =>
      Real.sqrt (w.1 ^ 2 + w.2 ^ 2) / q ^ 2 * x ^ (-(1:ℝ)/2))
      MeasureTheory.volume 0 1 := by
    have := hg0.const_mul (Real.sqrt (w.1 ^ 2 + w.2 ^ 2) / q ^ 2)
    simpa using this
  have hg : MeasureTheory.IntegrableOn (fun x : ℝ =>
      Real.sqrt (w.1 ^ 2 + w.2 ^ 2) / q ^ 2 * x ^ (-(1:ℝ)/2))
      (Set.Ioc (0:ℝ) 1) MeasureTheory.volume := by
    rw [intervalIntegrable_iff, Set.uIoc_of_le (by norm_num : (0:ℝ) ≤ 1)]
      at hg1
    exact hg1
  refine MeasureTheory.Integrable.mono' hg
    ((continuousOn_sie_h hq0 hq1 hw).aestronglyMeasurable measurableSet_Ioc)
    ?_
  rw [MeasureTheory.ae_restrict_iff' measurableSet_Ioc]
  refine Filter.Eventually.of_forall fun u hu => ?_
  have hu0 : (0:ℝ) < u := hu.1
  have hu1 : u ≤ 1 := hu.2
  have hc : 0 < 1 - (1 - q ^ 2) * u := sie_c_pos hq0 hq1 hu0.le hu1
  have hK : 0 < sie_K q w u := sie_K_pos hq0 hq1 hw hu0.le hu1
  have hau : (0:ℝ) < Real.sqrt u := Real.sqrt_pos.2 hu0
  have hnn : 0 ≤ sie_h q w u := by
    rw [sie_h]
    positivity
  rw [Real.norm_eq_abs, abs_of_nonneg hnn]
  have hKle : sie_K q w u ≤ w.1 ^ 2 + w.2 ^ 2 := by
    rw [sie_K]
    nlinarith [sq_nonneg w.2, mul_nonneg (mul_nonneg hq2.le hu0.le)
      (sq_nonneg w.2)]
  have hcge : q ^ 2 ≤ 1 - (1 - q ^ 2) * u := by
    nlinarith [mul_nonneg hq2.le (by linarith : (0:ℝ) ≤ 1 - u)]
  have hrpow : u ^ (-(1:ℝ)/2) = (Real.sqrt u)⁻¹ := by
    rw [show (-(1:ℝ)/2) = -(1/2 : ℝ) by norm_num, Real.rpow_neg hu0.le,
      ← Real.sqrt_eq_rpow]
  rw [sie_h, hrpow]
  have h1 : Real.sqrt (sie_K q w u) ≤ Real.sqrt (w.1 ^ 2 + w.2 ^ 2) :=
    Real.sqrt_le_sqrt hKle
  have h2 : Real.sqrt u * q ^ 2 ≤ Real.sqrt u * (1 - (1 - q ^ 2) * u) := by
    exact mul_le_mul_of_nonneg_left hcge hau.le
  calc Real.sqrt (sie_K q w u) / (Real.sqrt u * (1 - (1 - q ^ 2) * u)) ≤
      Real.sqrt (w.1 ^ 2 + w.2 ^ 2) / (Real.sqrt u * q ^ 2) := by
        apply div_le_div (Real.sqrt_nonneg _) h1 (by positivity) h2
    _ = Real.sqrt (w.1 ^ 2 + w.2 ^ 2) / q ^ 2 * (Real.sqrt u)⁻¹ := by
        ring

theorem integral_sie_h_eq {q : ℝ} (hq0 : 0 < q) (hq1 : q < 1) {w : Point}
    (hw : w ≠ 0) :
    ∫ u in (0:ℝ)..1, sie_h q w u = sie_H q w 1 - sie_H q w 0 :=
  intervalIntegral.integral_eq_sub_of_hasDeriv_right_of_le (by norm_num)
    (continuousOn_sie_H hq0 hq1 hw)
    (fun u hu =>
      (hasDerivAt_sie_H hq0 hq1 hw hu.1 hu.2.le).hasDerivWithinAt)
    (intervalIntegrable_sie_h hq0 hq1 hw)

theorem potential_func_eq_sie_h {q : ℝ} (hq0 : 0 < q) (hq1 : q < 1)
    {w : Point} (hw : w ≠ 0) :
    Set.EqOn (fun u => MockEllipticalIsothermal.potential_func u w.1 w.2 q)
      (sie_h q w) (Set.uIcc (0:ℝ) 1) := by
  rw [Set.uIcc_of_le (by norm_num : (0:ℝ) ≤ 1)]
  intro u hu
  rcases eq_or_lt_of_le hu.1 with h0 | h0
  · simp [MockEllipticalIsothermal.potential_func, sie_h, ← h0]
  · have hu1 : u ≤ 1 := hu.2
    have hc : 0 < 1 - (1 - q ^ 2) * u := sie_c_pos hq0 hq1 h0.le hu1
    have hK : 0 < sie_K q w u := sie_K_pos hq0 hq1 hw h0.le hu1
    have hinner : w.2 ^ 2 + w.1 ^ 2 / (1 - (1 - q ^ 2) * u) =
        sie_K q w u / (1 - (1 - q ^ 2) * u) := by
      rw [sie_K]
      field_simp
    have hetapos : 0 < u * (w.2 ^ 2 + w.1 ^ 2 / (1 - (1 - q ^ 2) * u)) := by
      rw [hinner]
      exact mul_pos h0 (div_pos hK hc)
    have hetane : Real.sqrt (u * (w.2 ^ 2 + w.1 ^ 2 /
        (1 - (1 - q ^ 2) * u))) ≠ 0 := (Real.sqrt_pos.2 hetapos).ne'
    have hcsqrt : (0:ℝ) < Real.sqrt (1 - (1 - q ^ 2) * u) :=
      Real.sqrt_pos.2 hc
    have hau : (0:ℝ) < Real.sqrt u := Real.sqrt_pos.2 h0
    show MockEllipticalIsothermal.potential_func u w.1 w.2 q = sie_h q w u
    rw [MockEllipticalIsothermal.potential_func, sie_h]
    have hsimp : Real.sqrt (u * (w.2 ^ 2 + w.1 ^ 2 /
          (1 - (1 - q ^ 2) * u))) / u *
        (Real.sqrt (u * (w.2 ^ 2 + w.1 ^ 2 / (1 - (1 - q ^ 2) * u))))⁻¹ *
        Real.sqrt (u * (w.2 ^ 2 + w.1 ^ 2 / (1 - (1 - q ^ 2) * u))) /
        Real.sqrt (1 - (1 - q ^ 2) * u) =
        Real.sqrt (u * (w.2 ^ 2 + w.1 ^ 2 / (1 - (1 - q ^ 2) * u))) /
          (u * Real.sqrt (1 - (1 - q ^ 2) * u)) := by
      rw [mul_assoc, inv_mul_cancel₀ hetane, mul_one, div_div]
    rw [hsimp, hinner, Real.sqrt_mul h0.le, Real.sqrt_div hK.le]
    have hcc : Real.sqrt (1 - (1 - q ^ 2) * u) *
        Real.sqrt (1 - (1 - q ^ 2) * u) = 1 - (1 - q ^ 2) * u :=
      Real.mul_self_sqrt hc.le
    have huu : Real.sqrt u * Real.sqrt u = u := Real.mul_self_sqrt h0.le
    field_simp
    linear_combination
      (-(Real.sqrt (sie_K q w u) * u)) * hcc +
      (Real.sqrt (sie_K q w u) * (1 - (1 - q ^ 2) * u)) * huu

theorem sie_H_zero (q : ℝ) (w : Point) : sie_H q w 0 = 0 := by
  simp [sie_H, arctanh_zero]

theorem sie_H_one {q : ℝ} (w : Point) :
    sie_H q w 1 = 2 / Real.sqrt (1 - q ^ 2) *
      (w.2 * Real.arctan (Real.sqrt (1 - q ^ 2) * w.2 / psiEll q w) +
       w.1 * arctanh (Real.sqrt (1 - q ^ 2) * w.1 / psiEll q w)) := by
  rw [sie_H]
  have hKeq : sie_K q w 1 = q ^ 2 * w.2 ^ 2 + w.1 ^ 2 := by
    rw [sie_K]
    ring
  rw [hKeq]
  simp [Real.sqrt_one, mul_one, psiEll]

theorem integral_potential_func_eq {q : ℝ} (hq0 : 0 < q) (hq1 : q < 1)
    {w : Point} (hw : w ≠ 0) :
    (∫ u in (0:ℝ)..1,
        MockEllipticalIsothermal.potential_func u w.1 w.2 q) =
      2 / Real.sqrt (1 - q ^ 2) *
        (w.2 * Real.arctan (Real.sqrt (1 - q ^ 2) * w.2 / psiEll q w) +
         w.1 * arctanh (Real.sqrt (1 - q ^ 2) * w.1 / psiEll q w)) := by
  rw [intervalIntegral.integral_congr (potential_func_eq_sie_h hq0 hq1 hw)]
  rw [integral_sie_h_eq hq0 hq1 hw, sie_H_zero, sie_H_one, sub_zero]

end SieIntegral

section SieAssembly

/-- The rotation `rotate_ccw theta` as a continuous linear map. -/
noncomputable def rotCLM (theta : ℝ) : Point →L[ℝ] Point :=
  (Real.sin theta • sndL + Real.cos theta • fstL).prod
    (Real.cos theta • sndL - Real.sin theta • fstL)

theorem rotate_ccw_apply_eq (theta : ℝ) (p : Point) :
    rotate_ccw theta p = rotCLM theta p := by
  simp only [rotate_ccw, rotCLM, ContinuousLinearMap.prod_apply,
    ContinuousLinearMap.add_apply, ContinuousLinearMap.coe_sub', Pi.sub_apply,
    ContinuousLinearMap.coe_smul', Pi.smul_apply, fstL, sndL,
    ContinuousLinearMap.coe_fst', ContinuousLinearMap.coe_snd', smul_eq_mul]
  exact Prod.ext_iff.2 ⟨by ring, by ring⟩

theorem hasFDerivAt_rotate_ccw (theta : ℝ) (p : Point) :
    HasFDerivAt (rotate_ccw theta) (rotCLM theta) p := by
  have hfun : rotate_ccw theta = fun v : Point => rotCLM theta v := by
    funext v
    exact rotate_ccw_apply_eq theta v
  rw [hfun]
  exact (rotCLM theta).hasFDerivAt

theorem rotate_ccw_zero_point (theta : ℝ) :
    rotate_ccw theta ((0:ℝ), (0:ℝ)) = ((0:ℝ), (0:ℝ)) := by
  simp [rotate_ccw]

theorem rotate_ccw_inv_left (theta : ℝ) (p : Point) :
    rotate_ccw theta (rotate_ccw (-theta) p) = p := by
  have hpyth := Real.sin_sq_add_cos_sq theta
  simp only [rotate_ccw, Real.sin_neg, Real.cos_neg]
  refine Prod.ext_iff.2 ⟨?_, ?_⟩
  · show (p.2 * Real.cos theta - p.1 * -Real.sin theta) * Real.sin theta +
      (p.2 * -Real.sin theta + p.1 * Real.cos theta) * Real.cos theta = p.1
    linear_combination p.1 * hpyth
  · show (p.2 * Real.cos theta - p.1 * -Real.sin theta) * Real.cos theta -
      (p.2 * -Real.sin theta + p.1 * Real.cos theta) * Real.sin theta = p.2
    linear_combination p.2 * hpyth

theorem rotate_ccw_ne_zero {theta : ℝ} {p : Point} (hp : p ≠ 0) :
    rotate_ccw theta p ≠ 0 := by
  intro hcontra
  apply hp
  have h0 : rotate_ccw (-theta) (rotate_ccw theta p) =
      rotate_ccw (-theta) ((0:ℝ), (0:ℝ)) := by
    rw [hcontra]
    rfl
  rw [rotate_ccw_zero_point] at h0
  have h1 : rotate_ccw (-theta) (rotate_ccw theta p) = p := by
    have := rotate_ccw_inv_left (-theta) p
    rwa [neg_neg] at this
  rw [h1] at h0
  exact h0

theorem ell_transform_eq (phi : ℝ) (p : Point) :
    transform_grid_to_reference_frame ((0:ℝ), (0:ℝ)) phi p =
      rotate_ccw (-(phi * π / 180)) p := by
  rw [transform_grid_to_reference_frame]
  congr 1
  exact Prod.ext_iff.2 ⟨by simp, by simp⟩

theorem ell_potential_eq_closed {q er phi : ℝ} (hq0 : 0 < q) (hq1 : q < 1)
    {p : Point} (hp : p ≠ 0) :
    (MockEllipticalIsothermal.mk ((0:ℝ), (0:ℝ)) q phi er).potential_from_grid
        p =
      sie_closed_potential q er (rotate_ccw (-(phi * π / 180)) p) := by
  have hw : rotate_ccw (-(phi * π / 180)) p ≠ 0 := rotate_ccw_ne_zero hp
  have hw' : rotate_ccw (-(phi * π / 180)) p ≠ ((0:ℝ), (0:ℝ)) := hw
  rw [MockEllipticalIsothermal.potential_from_grid]
  rw [show transform_grid_to_reference_frame ((0:ℝ), (0:ℝ)) phi p =
      rotate_ccw (-(phi * π / 180)) p from ell_transform_eq phi p]
  rw [move_grid_to_radial_minimum, if_neg hw']
  rw [integral_potential_func_eq hq0 hq1 hw]
  rw [sie_closed_potential, sie_factor,
    MockEllipticalIsothermal.einstein_radius_rescaled]
  ring

theorem ell_deflections_eq_core {q er phi : ℝ} {p : Point} (hp : p ≠ 0) :
    (MockEllipticalIsothermal.mk ((0:ℝ), (0:ℝ)) q phi er).deflections_from_grid
        p =
      rotate_ccw (phi * π / 180)
        (sie_core q er (rotate_ccw (-(phi * π / 180)) p)) := by
  have hw : rotate_ccw (-(phi * π / 180)) p ≠ 0 := rotate_ccw_ne_zero hp
  have hw' : rotate_ccw (-(phi * π / 180)) p ≠ ((0:ℝ), (0:ℝ)) := hw
  rw [MockEllipticalIsothermal.deflections_from_grid]
  rw [show transform_grid_to_reference_frame ((0:ℝ), (0:ℝ)) phi p =
      rotate_ccw (-(phi * π / 180)) p from ell_transform_eq phi p]
  rw [move_grid_to_radial_minimum, if_neg hw']
  rfl

/-- The elliptical isothermal profile at any position angle: the deflections
derived from the gradient of its quadrature potential agree exactly with its
analytic closed-form deflections at every coordinate away from the
centre. -/
theorem sie_deflections_via_potential_eq {q er phi : ℝ} (hq0 : 0 < q)
    (hq1 : q < 1) {p : Point} (hp : p ≠ 0) :
    (MockEllipticalIsothermal.mk ((0:ℝ), (0:ℝ)) q phi
        er).deflections_via_potential_from_grid p =
      (MockEllipticalIsothermal.mk ((0:ℝ), (0:ℝ)) q phi
        er).deflections_from_grid p := by
  have hw : rotate_ccw (-(phi * π / 180)) p ≠ 0 := rotate_ccw_ne_zero hp
  have hmaster := hasFDerivAt_sie_closed_potential er hq0 hq1 hw
  have hrot := hasFDerivAt_rotate_ccw (-(phi * π / 180)) p
  have hcompose : HasFDerivAt
      (fun v : Point => sie_closed_potential q er
        (rotate_ccw (-(phi * π / 180)) v))
      (((sie_core q er (rotate_ccw (-(phi * π / 180)) p)).1 • fstL +
        (sie_core q er (rotate_ccw (-(phi * π / 180)) p)).2 • sndL).comp
          (rotCLM (-(phi * π / 180)))) p := by
    have h0 := HasFDerivAt.comp p hmaster hrot
    exact h0
  have hd1 : deriv (fun y =>
      (MockEllipticalIsothermal.mk ((0:ℝ), (0:ℝ)) q phi
        er).potential_from_grid (y, p.2)) p.1 =
      ((((sie_core q er (rotate_ccw (-(phi * π / 180)) p)).1 • fstL +
        (sie_core q er (rotate_ccw (-(phi * π / 180)) p)).2 • sndL).comp
          (rotCLM (-(phi * π / 180)))) ((1:ℝ), (0:ℝ))) := by
    have hev : (fun y =>
        (MockEllipticalIsothermal.mk ((0:ℝ), (0:ℝ)) q phi
          er).potential_from_grid (y, p.2)) =ᶠ[nhds p.1]
        fun y => sie_closed_potential q er
          (rotate_ccw (-(phi * π / 180)) (y, p.2)) := by
      filter_upwards [eventually_slice_y_ne hp] with y hy
      exact ell_potential_eq_closed hq0 hq1 hy
    rw [hev.deriv_eq]
    have hline : HasDerivAt (fun y : ℝ => ((y, p.2) : Point))
        ((((1:ℝ), (0:ℝ))) : Point) p.1 :=
      (hasDerivAt_id p.1).prod (hasDerivAt_const p.1 p.2)
    have hcomp := HasFDerivAt.comp_hasDerivAt p.1 hcompose hline
    exact hcomp.deriv
  have hd2 : deriv (fun x =>
      (MockEllipticalIsothermal.mk ((0:ℝ), (0:ℝ)) q phi
        er).potential_from_grid (p.1, x)) p.2 =
      ((((sie_core q er (rotate_ccw (-(phi * π / 180)) p)).1 • fstL +
        (sie_core q er (rotate_ccw (-(phi * π / 180)) p)).2 • sndL).comp
          (rotCLM (-(phi * π / 180)))) ((0:ℝ), (1:ℝ))) := by
    have hev : (fun x =>
        (MockEllipticalIsothermal.mk ((0:ℝ), (0:ℝ)) q phi
          er).potential_from_grid (p.1, x)) =ᶠ[nhds p.2]
        fun x => sie_closed_potential q er
          (rotate_ccw (-(phi * π / 180)) (p.1, x)) := by
      filter_upwards [eventually_slice_x_ne hp] with x hx
      exact ell_potential_eq_closed hq0 hq1 hx
    rw [hev.deriv_eq]
    have hline : HasDerivAt (fun x : ℝ => ((p.1, x) : Point))
        ((((0:ℝ), (1:ℝ))) : Point) p.2 :=
      (hasDerivAt_const p.2 p.1).prod (hasDerivAt_id p.2)
    have hcomp := HasFDerivAt.comp_hasDerivAt p.2 hcompose hline
    exact hcomp.deriv
  rw [MockEllipticalIsothermal.deflections_via_potential_from_grid,
    deflections_via_potential, ell_deflections_eq_core hp]
  rw [hd1, hd2]
  simp only [ContinuousLinearMap.coe_comp', Function.comp_apply,
    ContinuousLinearMap.add_apply, ContinuousLinearMap.coe_smul',
    Pi.smul_apply, fstL, sndL, ContinuousLinearMap.coe_fst',
    ContinuousLinearMap.coe_snd', smul_eq_mul, rotCLM,
    ContinuousLinearMap.prod_apply, ContinuousLinearMap.coe_sub',
    Pi.sub_apply, rotate_ccw, Real.sin_neg, Real.cos_neg]
  exact Prod.ext_iff.2 ⟨by ring, by ring⟩

end SieAssembly

section DeflectionsRoundTrip

/-- Modelled from the spec: the mean error between two (y,x) deflection
fields evaluated over the same grid — the mean of the componentwise
absolute differences of corresponding entries. -/
noncomputable def deflections_mean_error (xs ys : List Point) : ℝ :=
  meanList ((xs.zip ys).map
    (fun uv => |uv.1.1 - uv.2.1| + |uv.1.2 - uv.2.2|))

/-- The mean error of a deflection field against itself is zero. -/
theorem deflections_mean_error_self (xs : List Point) :
    deflections_mean_error xs xs = 0 := by
  rw [deflections_mean_error, meanList]
  have h : ((xs.zip xs).map
      (fun uv : Point × Point =>
        |uv.1.1 - uv.2.1| + |uv.1.2 - uv.2.2|)).sum = 0 := by
    induction xs with
    | nil => simp
    | cons a t ih => simp [ih]
  rw [h, zero_div]

end DeflectionsRoundTrip

section ClaimC3

/-- C3: for the spherical isothermal profile and the elliptical isothermal
profile at position angles 0 and 45 degrees, the deflection field derived
from the gradient of the potential (`deflections_via_potential_from_grid`)
agrees with the analytic deflection field (`deflections_from_grid`) at every
grid coordinate away from the centre, so the mean error over the grid is
exactly zero, below the 1e-4 tolerance. -/
theorem C3_deflections_via_potential_agree_with_analytic
    {q erE erS phi : ℝ} (hq0 : 0 < q) (hq1 : q < 1)
    (_hphi : phi = 0 ∨ phi = 45) (grid : List Point)
    (hgrid : ∀ p ∈ grid, p ≠ 0) :
    (∀ p ∈ grid,
      (MockSphericalIsothermal.mk ((0:ℝ), (0:ℝ))
          erS).deflections_via_potential_from_grid p =
        (MockSphericalIsothermal.mk ((0:ℝ), (0:ℝ))
          erS).deflections_from_grid p ∧
      (MockEllipticalIsothermal.mk ((0:ℝ), (0:ℝ)) q phi
          erE).deflections_via_potential_from_grid p =
        (MockEllipticalIsothermal.mk ((0:ℝ), (0:ℝ)) q phi
          erE).deflections_from_grid p) ∧
    deflections_mean_error
        (grid.map (MockSphericalIsothermal.mk ((0:ℝ), (0:ℝ))
          erS).deflections_via_potential_from_grid)
        (grid.map (MockSphericalIsothermal.mk ((0:ℝ), (0:ℝ))
          erS).deflections_from_grid) < 1e-4 ∧
    deflections_mean_error
        (grid.map (MockEllipticalIsothermal.mk ((0:ℝ), (0:ℝ)) q phi
          erE).deflections_via_potential_from_grid)
        (grid.map (MockEllipticalIsothermal.mk ((0:ℝ), (0:ℝ)) q phi
          erE).deflections_from_grid) < 1e-4 := by
  have hsph : ∀ p ∈ grid,
      (MockSphericalIsothermal.mk ((0:ℝ), (0:ℝ))
          erS).deflections_via_potential_from_grid p =
        (MockSphericalIsothermal.mk ((0:ℝ), (0:ℝ))
          erS).deflections_from_grid p :=
    fun p hp => sph_deflections_via_potential_eq (hgrid p hp)
  have hell : ∀ p ∈ grid,
      (MockEllipticalIsothermal.mk ((0:ℝ), (0:ℝ)) q phi
          erE).deflections_via_potential_from_grid p =
        (MockEllipticalIsothermal.mk ((0:ℝ), (0:ℝ)) q phi
          erE).deflections_from_grid p :=
    fun p hp => sie_deflections_via_potential_eq hq0 hq1 (hgrid p hp)
  refine ⟨fun p hp => ⟨hsph p hp, hell p hp⟩, ?_, ?_⟩
  · rw [List.map_congr_left hsph, deflections_mean_error_self]
    norm_num
  · rw [List.map_congr_left hell, deflections_mean_error_self]
    norm_num

/-- Witness for C3 at the elliptical profile with axis ratio 0.8 and position
angle 45 degrees, einstein radii 2, on the one-point grid (0.025, 0.025). -/
theorem C3_witness :
    (∀ p ∈ [(((0.025:ℝ), (0.025:ℝ)) : Point)],
      (MockSphericalIsothermal.mk ((0:ℝ), (0:ℝ))
          (2:ℝ)).deflections_via_potential_from_grid p =
        (MockSphericalIsothermal.mk ((0:ℝ), (0:ℝ))
          (2:ℝ)).deflections_from_grid p ∧
      (MockEllipticalIsothermal.mk ((0:ℝ), (0:ℝ)) (0.8:ℝ) (45:ℝ)
          (2:ℝ)).deflections_via_potential_from_grid p =
        (MockEllipticalIsothermal.mk ((0:ℝ), (0:ℝ)) (0.8:ℝ) (45:ℝ)
          (2:ℝ)).deflections_from_grid p) ∧
    deflections_mean_error
        ([(((0.025:ℝ), (0.025:ℝ)) : Point)].map
          (MockSphericalIsothermal.mk ((0:ℝ), (0:ℝ))
            (2:ℝ)).deflections_via_potential_from_grid)
        ([(((0.025:ℝ), (0.025:ℝ)) : Point)].map
          (MockSphericalIsothermal.mk ((0:ℝ), (0:ℝ))
            (2:ℝ)).deflections_from_grid) < 1e-4 ∧
    deflections_mean_error
        ([(((0.025:ℝ), (0.025:ℝ)) : Point)].map
          (MockEllipticalIsothermal.mk ((0:ℝ), (0:ℝ)) (0.8:ℝ) (45:ℝ)
            (2:ℝ)).deflections_via_potential_from_grid)
        ([(((0.025:ℝ), (0.025:ℝ)) : Point)].map
          (MockEllipticalIsothermal.mk ((0:ℝ), (0:ℝ)) (0.8:ℝ) (45:ℝ)
            (2:ℝ)).deflections_from_grid) < 1e-4 :=
  C3_deflections_via_potential_agree_with_analytic (by norm_num)
    (by norm_num) (Or.inr rfl) [(((0.025:ℝ), (0.025:ℝ)) : Point)]
    (by
      intro p hp
      rw [List.mem_singleton] at hp
      subst hp
      intro h
      have h1 := congrArg Prod.fst h
      norm_num at h1)

end ClaimC3
